import Mathlib

/-!
Verification development for the chronicler vault engine (src-tauri):
a shallow embedding, in Lean 4, of the indexer (`indexer.rs`), the
transactional writer (`writer.rs`), the wikilink rewriting machinery
(`wikilink.rs` / `writer.rs`), the parser front door (`parser.rs`, with the
YAML content parsing treated as an abstract black box, as the specification
directs), and the watcher's event conversion (`watcher.rs`).

Modelling conventions:
- Rust `String` / `&str` values are `List Char` (`Str`); lowercasing is
  `Char.toLower` mapped over the list (ASCII-faithful).
- Filesystem paths are lists of components (`FPath`), mirroring the
  component-wise semantics of Rust `Path` (`starts_with`, `strip_prefix`,
  `join`).
- `HashMap` / `HashSet` are association lists / lists with their lookup and
  membership semantics; keys of maps built by the model are kept duplicate
  free exactly as a `HashMap`'s keys are.
- The filesystem is a finite association from paths to file contents; I/O
  failure of a write is abstracted by a per-path oracle.
-/

namespace Chronicler

/-- Rust strings, modelled as lists of characters. -/
abbrev Str := List Char

/-- Filesystem paths, modelled as lists of path components so that
`Path::starts_with` / `strip_prefix` / `join` keep their component-wise
semantics. -/
abbrev FPath := List Str

/-- Rust `str::to_lowercase`, ASCII-faithful. -/
def lcase (s : Str) : Str := s.map Char.toLower

/-- Splits a character list at its last dot, returning the parts before and
after that dot, or `none` when no dot occurs. -/
def splitAtLastDot : Str → Option (Str × Str)
  | [] => none
  | c :: rest =>
    match splitAtLastDot rest with
    | some (pre, ext) => some (c :: pre, ext)
    | none => if c = '.' then some ([], rest) else none

/-- Rust `Path::file_stem` / `Path::extension` on a single file name: the
extension starts after the last dot, except that a dot leading the whole name
(hidden files) does not begin an extension. -/
def nameStemExt (name : Str) : Str × Option Str :=
  match name with
  | [] => ([], none)
  | c0 :: rest =>
    match splitAtLastDot rest with
    | some (pre, ext) => (c0 :: pre, some ext)
    | none => (name, none)

/-- Rust `Path::file_stem`: stem of the final component, `none` for an empty
path. -/
def pathFileStem (p : FPath) : Option Str :=
  p.getLast?.map (fun n => (nameStemExt n).1)

/-- Rust `Path::extension` of the final component. -/
def pathExtension (p : FPath) : Option Str :=
  p.getLast?.bind (fun n => (nameStemExt n).2)

/-- The `file_stem_string` helper of `utils.rs`: the file stem, or the empty
string when the path has none. -/
def file_stem_string (p : FPath) : Str :=
  (pathFileStem p).getD []

/-- The `is_markdown_file` helper of `utils.rs`: the extension equals `md`
ignoring ASCII case. -/
def is_markdown_file (p : FPath) : Bool :=
  match pathExtension p with
  | some e => decide (lcase e = [ 'm', 'd' ])
  | none => false

/-- Rust `Path::starts_with`: component-wise prefix test. -/
def path_starts_with (p pre : FPath) : Bool :=
  match pre, p with
  | [], _ => true
  | _ :: _, [] => false
  | a :: pre1, b :: p1 => decide (a = b) && path_starts_with p1 pre1

theorem path_starts_with_iff (p pre : FPath) :
    path_starts_with p pre = true ↔ pre <+: p := by
  induction pre generalizing p with
  | nil => simp [path_starts_with]
  | cons a pre1 ih =>
    cases p with
    | nil => simp [path_starts_with]
    | cons b p1 =>
      rw [List.cons_prefix_cons]
      simp only [path_starts_with, Bool.and_eq_true, decide_eq_true_eq, ih]

section AssocMaps

variable {κ : Type} {β : Type} [DecidableEq κ]

/-- `HashMap::get`, on an association list. -/
def aLookup (m : List (κ × β)) (k : κ) : Option β :=
  (m.find? (fun kv => decide (kv.1 = k))).map (fun kv => kv.2)

/-- `HashMap::remove`: drops the entry with the given key.  Keys of the maps
built by this model are duplicate free, so filtering is exactly removal of
the one entry. -/
def eraseKey (k : κ) (m : List (κ × β)) : List (κ × β) :=
  m.filter (fun kv => !(decide (kv.1 = k)))

/-- `HashMap::insert`: replaces any existing entry for the key. -/
def aInsert (k : κ) (v : β) (m : List (κ × β)) : List (κ × β) :=
  (k, v) :: eraseKey k m

/-- `HashMap::entry(k).or_default()` followed by an in-place update with `f`
(`d` is the default the entry is created from). -/
def aUpd (m : List (κ × β)) (k : κ) (f : β → β) (d : β) : List (κ × β) :=
  match m with
  | [] => [(k, f d)]
  | (k1, v) :: rest => if k1 = k then (k, f v) :: rest else (k1, v) :: aUpd rest k f d

theorem aLookup_nil (k : κ) : aLookup ([] : List (κ × β)) k = none := rfl

theorem aLookup_cons (k1 : κ) (v : β) (rest : List (κ × β)) (k : κ) :
    aLookup ((k1, v) :: rest) k = if k1 = k then some v else aLookup rest k := by
  by_cases h : k1 = k <;> simp [aLookup, List.find?, h]

theorem eraseKey_cons (k : κ) (kv : κ × β) (rest : List (κ × β)) :
    eraseKey k (kv :: rest) =
      if kv.1 = k then eraseKey k rest else kv :: eraseKey k rest := by
  by_cases h : kv.1 = k <;> simp [eraseKey, List.filter_cons, h]

theorem aLookup_eraseKey_self (k : κ) (m : List (κ × β)) :
    aLookup (eraseKey k m) k = none := by
  induction m with
  | nil => rfl
  | cons kv rest ih =>
    rw [eraseKey_cons]
    by_cases h : kv.1 = k
    · simpa [h] using ih
    · rw [if_neg h]
      rcases kv with ⟨k1, v⟩
      rw [aLookup_cons, if_neg h]
      exact ih

theorem aLookup_eraseKey_ne (k q : κ) (m : List (κ × β)) (h : k ≠ q) :
    aLookup (eraseKey k m) q = aLookup m q := by
  induction m with
  | nil => rfl
  | cons kv rest ih =>
    rcases kv with ⟨k1, v⟩
    rw [eraseKey_cons]
    by_cases h1 : k1 = k
    · simp only at h1
      rw [if_pos h1, ih, aLookup_cons]
      have : k1 ≠ q := by rw [h1]; exact h
      rw [if_neg this]
    · simp only at h1
      rw [if_neg h1, aLookup_cons, aLookup_cons]
      by_cases h2 : k1 = q
      · rw [if_pos h2, if_pos h2]
      · rw [if_neg h2, if_neg h2]
        exact ih

theorem aLookup_aInsert_self (k : κ) (v : β) (m : List (κ × β)) :
    aLookup (aInsert k v m) k = some v := by
  simp [aInsert, aLookup_cons]

theorem aLookup_aInsert_ne (k : κ) (v : β) (m : List (κ × β)) (q : κ) (h : k ≠ q) :
    aLookup (aInsert k v m) q = aLookup m q := by
  simp [aInsert, aLookup_cons, h, aLookup_eraseKey_ne k q m h]

theorem aLookup_aUpd_self (m : List (κ × β)) (k : κ) (f : β → β) (d : β) :
    aLookup (aUpd m k f d) k = some (f ((aLookup m k).getD d)) := by
  induction m with
  | nil => simp [aUpd, aLookup_cons, aLookup_nil]
  | cons kv rest ih =>
    rcases kv with ⟨k1, v⟩
    by_cases h : k1 = k <;> simp [aUpd, h, aLookup_cons, ih]

theorem aLookup_aUpd_ne (m : List (κ × β)) (k : κ) (f : β → β) (d : β) (q : κ) (h : k ≠ q) :
    aLookup (aUpd m k f d) q = aLookup m q := by
  induction m with
  | nil => simp [aUpd, aLookup_cons, h]
  | cons kv rest ih =>
    rcases kv with ⟨k1, v⟩
    by_cases h1 : k1 = k
    · subst h1; simp [aUpd, aLookup_cons, h]
    · simp [aUpd, h1, aLookup_cons, ih]

theorem aUpd_cons (k1 : κ) (v : β) (rest : List (κ × β)) (k : κ) (f : β → β) (d : β) :
    aUpd ((k1, v) :: rest) k f d =
      if k1 = k then (k, f v) :: rest else (k1, v) :: aUpd rest k f d := rfl

theorem aUpd_keys_subset (m : List (κ × β)) (k : κ) (f : β → β) (d : β) (q : κ) :
    q ∈ (aUpd m k f d).map Prod.fst → q = k ∨ q ∈ m.map Prod.fst := by
  induction m with
  | nil => simp [aUpd]
  | cons kv rest ih =>
    rcases kv with ⟨k1, v⟩
    rw [aUpd_cons]
    by_cases h : k1 = k
    · rw [if_pos h]
      subst h
      simp only [List.map_cons, List.mem_cons]
      tauto
    · rw [if_neg h]
      simp only [List.map_cons, List.mem_cons]
      intro hq
      rcases hq with hq | hq
      · exact Or.inr (Or.inl hq)
      · rcases ih hq with h1 | h1
        · exact Or.inl h1
        · exact Or.inr (Or.inr h1)

theorem aUpd_keys_nodup (m : List (κ × β)) (k : κ) (f : β → β) (d : β)
    (h : (m.map Prod.fst).Nodup) : ((aUpd m k f d).map Prod.fst).Nodup := by
  induction m with
  | nil => simp [aUpd]
  | cons kv rest ih =>
    rcases kv with ⟨k1, v⟩
    simp only [List.map_cons, List.nodup_cons] at h
    rw [aUpd_cons]
    by_cases hk : k1 = k
    · rw [if_pos hk]
      subst hk
      simp only [List.map_cons, List.nodup_cons]
      exact h
    · rw [if_neg hk]
      simp only [List.map_cons, List.nodup_cons]
      refine ⟨?_, ih h.2⟩
      intro hmem
      rcases aUpd_keys_subset rest k f d k1 hmem with h1 | h1
      · exact hk h1
      · exact h.1 h1

end AssocMaps

/-- `HashSet::insert`, on a list with set semantics. -/
def setIns {α : Type} [DecidableEq α] (x : α) (s : List α) : List α :=
  if x ∈ s then s else x :: s

theorem mem_setIns {α : Type} [DecidableEq α] (x y : α) (s : List α) :
    y ∈ setIns x s ↔ y = x ∨ y ∈ s := by
  by_cases h : x ∈ s
  · simp only [setIns, if_pos h]
    constructor
    · exact Or.inr
    · rintro (rfl | hy)
      · exact h
      · exact hy
  · simp [setIns, if_neg h]

theorem nodup_setIns {α : Type} [DecidableEq α] (x : α) (s : List α) (h : s.Nodup) :
    (setIns x s).Nodup := by
  by_cases hx : x ∈ s <;> simp [setIns, hx, h]

/-!
The wikilink pattern of `wikilink.rs` / `writer.rs`:

    WIKILINK_RE = \[\[([^\[\]\|#]+)(?:#([^\[\]\|]+))?(?:\|([^\[\]]+))?\]\]

Group 1 is the target, group 2 the section (captured without the leading
hash), group 3 the alias.  Because each captured class excludes every
character that can follow it in the pattern, the regex engine's greedy,
leftmost-first match coincides with the deterministic maximal-munch matcher
below: shortening a greedy run always leaves the scanner on a class character
that can match neither `#`, `|` nor `]`, so backtracking never produces a
match that maximal munch misses.
-/

/-- Characters admitted by the target class of the wikilink regex. -/
def targetChar (c : Char) : Bool :=
  !(c == '[' || c == ']' || c == '|' || c == '#')

/-- Characters admitted by the section class of the wikilink regex. -/
def sectChar (c : Char) : Bool :=
  !(c == '[' || c == ']' || c == '|')

/-- Characters admitted by the alias class of the wikilink regex. -/
def aliasChar (c : Char) : Bool :=
  !(c == '[' || c == ']')

/-- The capture groups of one wikilink match: target, optional section
(without the hash), optional alias. -/
structure WikiMatch where
  target : Str
  sec : Option Str
  al : Option Str
deriving DecidableEq, Repr

/-- Closing step of the wikilink matcher: the pattern ends with two closing
brackets; everything after them is the rest of the input. -/
def finishMatch (t : Str) (s? : Option Str) (a? : Option Str) :
    Str → Option (WikiMatch × Str)
  | ']' :: ']' :: rest => some (⟨t, s?, a?⟩, rest)
  | _ => none

/-- Optional-alias step of the wikilink matcher. -/
def afterTarget (t : Str) (s? : Option Str) (s : Str) : Option (WikiMatch × Str) :=
  match s with
  | '|' :: r =>
    let a := r.takeWhile aliasChar
    let r2 := r.dropWhile aliasChar
    if a.isEmpty then none else finishMatch t s? (some a) r2
  | _ => finishMatch t s? none s

/-- Matches the wikilink regex at the head of the input, returning the capture
groups and the rest of the input. -/
def matchWikilinkAt : Str → Option (WikiMatch × Str)
  | '[' :: '[' :: s =>
    let t := s.takeWhile targetChar
    let r1 := s.dropWhile targetChar
    if t.isEmpty then none
    else
      match r1 with
      | '#' :: r2 =>
        let sc := r2.takeWhile sectChar
        let r3 := r2.dropWhile sectChar
        if sc.isEmpty then none else afterTarget t (some sc) r3
      | _ => afterTarget t none r1
  | _ => none

/-- The exact text a wikilink match consumed (capture 0 of the regex). -/
def origText (m : WikiMatch) : Str :=
  '[' :: '[' :: m.target ++
    (match m.sec with | some s => '#' :: s | none => []) ++
    (match m.al with | some a => '|' :: a | none => []) ++ ']' :: ']' :: []

theorem finishMatch_sound {t : Str} {s? a? : Option Str} {s : Str} {m : WikiMatch}
    {r : Str} (h : finishMatch t s? a? s = some (m, r)) :
    m = ⟨t, s?, a?⟩ ∧ s = ']' :: ']' :: r := by
  unfold finishMatch at h
  split at h
  · simp only [Option.some.injEq, Prod.mk.injEq] at h
    exact ⟨h.1.symm, by rw [h.2]⟩
  · exact absurd h (by simp)

theorem afterTarget_sound {t : Str} {s? : Option Str} {s : Str} {m : WikiMatch}
    {r : Str} (h : afterTarget t s? s = some (m, r)) :
    m.target = t ∧ m.sec = s? ∧
      s = (match m.al with | some a => '|' :: a | none => []) ++ ']' :: ']' :: r := by
  unfold afterTarget at h
  split at h
  · rename_i rr
    by_cases he : (rr.takeWhile aliasChar).isEmpty
    · rw [if_pos he] at h
      exact absurd h (by simp)
    · rw [if_neg he] at h
      rcases finishMatch_sound h with ⟨hm, hs⟩
      subst hm
      refine ⟨rfl, rfl, ?_⟩
      simp only [List.cons_append, List.cons.injEq, true_and]
      rw [← hs, List.takeWhile_append_dropWhile]
  · rcases finishMatch_sound h with ⟨hm, hs⟩
    subst hm
    exact ⟨rfl, rfl, by simp [hs]⟩

theorem matchWikilinkAt_sound {s : Str} {m : WikiMatch} {r : Str}
    (h : matchWikilinkAt s = some (m, r)) : s = origText m ++ r := by
  unfold matchWikilinkAt at h
  split at h
  case _ s1 =>
    by_cases ht : (s1.takeWhile targetChar).isEmpty
    · rw [if_pos ht] at h
      exact absurd h (by simp)
    · rw [if_neg ht] at h
      have hs1 : s1 = s1.takeWhile targetChar ++ s1.dropWhile targetChar :=
        (List.takeWhile_append_dropWhile ..).symm
      split at h
      case _ r2 heq =>
        by_cases hsc : (r2.takeWhile sectChar).isEmpty
        · rw [if_pos hsc] at h
          exact absurd h (by simp)
        · rw [if_neg hsc] at h
          rcases afterTarget_sound h with ⟨hmt, hms, hrest⟩
          have hr2 : r2 = r2.takeWhile sectChar ++ r2.dropWhile sectChar :=
            (List.takeWhile_append_dropWhile ..).symm
          rw [hrest] at hr2
          rw [heq] at hs1
          rw [hr2] at hs1
          simp only [origText, ← hmt, hms]
          rw [hs1]
          simp [hmt]
      case _ hne =>
        rcases afterTarget_sound h with ⟨hmt, hms, hrest⟩
        rw [hrest] at hs1
        simp only [origText, ← hmt, hms]
        rw [hs1]
        simp [hmt]
  case _ hne =>
    exact absurd h (by simp)

theorem origText_ne_nil (m : WikiMatch) : origText m ≠ [] := by
  simp [origText]

theorem matchWikilinkAt_rest_lt {s : Str} {m : WikiMatch} {r : Str}
    (h : matchWikilinkAt s = some (m, r)) : r.length < s.length := by
  have := matchWikilinkAt_sound h
  rw [this, List.length_append]
  have : 0 < (origText m).length := List.length_pos.mpr (origText_ne_nil m)
  omega

/-- The replacement the closure inside `replace_wikilink_in_content` produces
for one regex match: when the target matches the old stem case-insensitively
the link is re-rendered from the new stem, the raw section capture (group 2,
which does not include the hash separator — exactly what the code
interpolates), and the alias; otherwise the original matched text is kept. -/
def rewriteOne (old_stem new_stem : Str) (m : WikiMatch) : Str :=
  if lcase m.target = lcase old_stem then
    match m.al with
    | some a => '[' :: '[' :: new_stem ++ m.sec.getD [] ++ '|' :: a ++ ']' :: ']' :: []
    | none => '[' :: '[' :: new_stem ++ m.sec.getD [] ++ ']' :: ']' :: []
  else origText m

/-- Left-to-right scan of `Regex::replace_all` over the content: at each
position the pattern is tried; on a match the replacement is emitted and the
scan resumes after the match, otherwise one character is copied.  The fuel
argument (always called with the content length, which bounds the number of
steps) makes the recursion structural. -/
def replaceScan (old_stem new_stem : Str) : Nat → Str → Str
  | 0, s => s
  | _ + 1, [] => []
  | fuel + 1, c :: rest =>
    match matchWikilinkAt (c :: rest) with
    | some (m, r1) => rewriteOne old_stem new_stem m ++ replaceScan old_stem new_stem fuel r1
    | none => c :: replaceScan old_stem new_stem fuel rest

/-- The `replace_wikilink_in_content` function of `writer.rs`: rewrites every
wikilink whose target matches `old_stem` case-insensitively and returns the new
content only when it differs from the input. -/
def replace_wikilink_in_content (content old_stem new_stem : Str) : Option Str :=
  let nc := replaceScan old_stem new_stem content.length content
  if nc = content then none else some nc

/-- Left-to-right scan collecting every wikilink match of the content, as
`captures_iter` enumerates them (capture groups only; the source also records
positions, which nothing modelled here consumes). -/
def wikiScan : Nat → Str → List WikiMatch
  | 0, _ => []
  | _ + 1, [] => []
  | fuel + 1, c :: rest =>
    match matchWikilinkAt (c :: rest) with
    | some (m, r1) => m :: wikiScan fuel r1
    | none => wikiScan fuel rest

/-- All wikilink matches of a content string. -/
def wikilinkMatches (s : Str) : List WikiMatch := wikiScan s.length s

theorem replaceScan_no_match (old_stem new_stem : Str) :
    ∀ fuel s, s.length ≤ fuel →
      (∀ m ∈ wikiScan fuel s, lcase m.target ≠ lcase old_stem) →
      replaceScan old_stem new_stem fuel s = s := by
  intro fuel
  induction fuel with
  | zero => intro s _ _; rfl
  | succ f ih =>
    intro s hlen hm
    match s with
    | [] => rfl
    | c :: rest =>
      simp only [replaceScan, wikiScan] at hm ⊢
      match hmt : matchWikilinkAt (c :: rest) with
      | some (m, r1) =>
        simp only [hmt] at hm ⊢
        have hr1 : r1.length < (c :: rest).length := matchWikilinkAt_rest_lt hmt
        have hne : lcase m.target ≠ lcase old_stem := hm m (by simp)
        have hrec : replaceScan old_stem new_stem f r1 = r1 := by
          refine ih r1 ?_ ?_
          · simp only [List.length_cons] at hr1 hlen; omega
          · intro m1 hm1
            exact hm m1 (List.mem_cons_of_mem m hm1)
        rw [hrec, rewriteOne, if_neg hne]
        exact (matchWikilinkAt_sound hmt).symm
      | none =>
        simp only [hmt] at hm ⊢
        have hrec : replaceScan old_stem new_stem f rest = rest := by
          refine ih rest ?_ hm
          simp only [List.length_cons] at hlen; omega
        rw [hrec]

/-- When no wikilink in the content targets the old stem (case-insensitively),
`replace_wikilink_in_content` reports no change. -/
theorem replace_wikilink_in_content_none (content old_stem new_stem : Str)
    (h : ∀ m ∈ wikilinkMatches content, lcase m.target ≠ lcase old_stem) :
    replace_wikilink_in_content content old_stem new_stem = none := by
  unfold replace_wikilink_in_content
  have := replaceScan_no_match old_stem new_stem content.length content le_rfl h
  simp [this]

/-- Claim C1: rewriting the backlink content `before [[Old#Sec|Alias]] and
[[Other]] after` for a rename of stem `Old` to `New` yields
`[[NewSec|Alias]]`, not the `[[New#Sec|Alias]]` the claim requires: regex
capture group 2 excludes the hash separator and the code interpolates the bare
capture, so the section suffix is not preserved verbatim (the alias is kept
and links to other targets stay byte-identical, but the rewritten link is
corrupted).  This contradicts the function's own documentation ("preserving
any sections or aliases"), so the claim stands and the code is at fault. -/
theorem C1_section_separator_dropped :
    replace_wikilink_in_content "before [[Old#Sec|Alias]] and [[Other]] after".data
        "Old".data "New".data
      = some "before [[NewSec|Alias]] and [[Other]] after".data ∧
    "before [[NewSec|Alias]] and [[Other]] after".data
      ≠ "before [[New#Sec|Alias]] and [[Other]] after".data := by
  exact ⟨by decide, by decide⟩

/-!
The filesystem and the transactional writer of `writer.rs`.

The filesystem is a finite association from paths to file contents.  Whether
an individual `atomic_write` fails is abstracted by a per-path oracle `bad`
(the source fails on I/O errors such as an unwritable directory, which are
properties of the target path); thanks to the temp-file/persist mechanism a
failed write leaves the target untouched.  `fs::rename` of a file moves the
content from the old key to the new key.
-/

/-- The filesystem: a finite association of paths to contents. -/
abbrev FS := List (FPath × Str)

/-- Reads a file (`fs::read_to_string`). -/
def fsRead (fs : FS) (p : FPath) : Option Str := aLookup fs p

/-- Error kinds of the writer operations modelled here. -/
inductive WriterErr
  | fileAlreadyExists (p : FPath)
  | ioError (p : FPath)
deriving DecidableEq, Repr

/-- The `atomic_write` helper: on success the target holds exactly the new
content; on failure (per the oracle) the filesystem is untouched. -/
def atomic_write (bad : FPath → Bool) (fs : FS) (p : FPath) (c : Str) :
    Except WriterErr FS :=
  if bad p then .error (.ioError p) else .ok (aInsert p c fs)

/-- A required change to a single backlink file, including its original
content for rollback (struct `BacklinkUpdate` of `writer.rs`). -/
structure BacklinkUpdate where
  path : FPath
  old_content : Str
  new_content : Str
deriving DecidableEq, Repr

/-- Prepare phase of `update_backlinks_for_rename`: read every backlink file
(skipping unreadable ones) and keep those whose rewrite changes the content. -/
def prepare_updates (fs : FS) (backlinks : List FPath) (old_stem new_stem : Str) :
    List BacklinkUpdate :=
  backlinks.filterMap (fun bp =>
    (fsRead fs bp).bind (fun oc =>
      (replace_wikilink_in_content oc old_stem new_stem).map
        (fun nc => ⟨bp, oc, nc⟩)))

/-- Rollback walk over the already-committed updates (latest first): each is
rewritten back to its original content; a rollback write that itself fails is
reported as critical in the source and the walk continues. -/
def rollbackWrites (bad : FPath → Bool) : FS → List BacklinkUpdate → FS
  | fs, [] => fs
  | fs, u :: rest =>
    match atomic_write bad fs u.path u.old_content with
    | .ok fs1 => rollbackWrites bad fs1 rest
    | .error _ => rollbackWrites bad fs rest

/-- Transaction phase of `update_backlinks_for_rename`: write the updates in
order, tracking the committed ones (`done`, latest first); on the first
failure, roll the committed writes back and return the original error. -/
def writeBacklinks (bad : FPath → Bool) :
    FS → List BacklinkUpdate → List BacklinkUpdate → Option WriterErr × FS
  | fs, _, [] => (none, fs)
  | fs, done, u :: rest =>
    match atomic_write bad fs u.path u.new_content with
    | .ok fs1 => writeBacklinks bad fs1 (u :: done) rest
    | .error e => (some e, rollbackWrites bad fs done)

/-- The `update_backlinks_for_rename` function of `writer.rs`.  Backlink
updates only apply to markdown file renames; the result pairs the error (if
any) with the filesystem after the operation. -/
def update_backlinks_for_rename (bad : FPath → Bool) (fs : FS)
    (old_path new_path : FPath) (backlinks : List FPath) : Option WriterErr × FS :=
  if is_markdown_file old_path then
    writeBacklinks bad fs []
      (prepare_updates fs backlinks (file_stem_string old_path) (file_stem_string new_path))
  else (none, fs)

/-- The `execute_rename_or_move` function of `writer.rs`, for a file rename:
destination-occupied check, primary rename, backlink update, and — on a
backlink failure — rollback of the primary rename, returning the original
error. -/
def execute_rename_or_move (bad : FPath → Bool) (fs : FS)
    (old_path new_path : FPath) (backlinks : List FPath) :
    Except WriterErr FPath × FS :=
  if (fsRead fs new_path).isSome then (.error (.fileAlreadyExists new_path), fs)
  else
    match fsRead fs old_path with
    | none => (.error (.ioError old_path), fs)
    | some c =>
      let fs1 := aInsert new_path c (eraseKey old_path fs)
      match update_backlinks_for_rename bad fs1 old_path new_path backlinks with
      | (none, fs2) => (.ok new_path, fs2)
      | (some e, fs2) =>
        match fsRead fs2 new_path with
        | some c2 => (.error e, aInsert old_path c2 (eraseKey new_path fs2))
        | none => (.error e, fs2)

theorem prepare_updates_mem {fs : FS} {backlinks : List FPath}
    {old_stem new_stem : Str} {u : BacklinkUpdate}
    (h : u ∈ prepare_updates fs backlinks old_stem new_stem) :
    u.path ∈ backlinks ∧ fsRead fs u.path = some u.old_content ∧
      replace_wikilink_in_content u.old_content old_stem new_stem = some u.new_content := by
  unfold prepare_updates at h
  rw [List.mem_filterMap] at h
  rcases h with ⟨bp, hbp, hu⟩
  rcases Option.bind_eq_some.mp hu with ⟨oc, hoc, hu2⟩
  rcases Option.map_eq_some'.mp hu2 with ⟨nc, hnc, hu3⟩
  subst hu3
  exact ⟨hbp, hoc, hnc⟩

theorem rollbackWrites_lookup_uncovered (bad : FPath → Bool) :
    ∀ (l : List BacklinkUpdate) (fs : FS) (q : FPath),
      (∀ u ∈ l, u.path ≠ q) → fsRead (rollbackWrites bad fs l) q = fsRead fs q := by
  intro l
  induction l with
  | nil => intro fs q _; rfl
  | cons u rest ih =>
    intro fs q hq
    have hu : u.path ≠ q := hq u (by simp)
    have hrest : ∀ v ∈ rest, v.path ≠ q := fun v hv => hq v (List.mem_cons_of_mem u hv)
    unfold rollbackWrites atomic_write
    by_cases hb : bad u.path
    · rw [if_pos hb]
      exact ih fs q hrest
    · rw [if_neg hb]
      rw [ih _ q hrest, fsRead, aLookup_aInsert_ne _ _ _ _ hu]
      rfl

theorem rollbackWrites_lookup_covered (bad : FPath → Bool) (g : FPath → Option Str) :
    ∀ (l : List BacklinkUpdate) (fs : FS),
      (∀ u ∈ l, bad u.path = false ∧ g u.path = some u.old_content) →
      ∀ q, (∃ u ∈ l, u.path = q) → fsRead (rollbackWrites bad fs l) q = g q := by
  intro l
  induction l with
  | nil => intro fs _ q hq; simp at hq
  | cons u rest ih =>
    intro fs hl q hq
    have hu := hl u (by simp)
    simp only [rollbackWrites, atomic_write, hu.1, Bool.false_eq_true, if_neg, ite_false]
    have hrest : ∀ v ∈ rest, bad v.path = false ∧ g v.path = some v.old_content :=
      fun v hv => hl v (List.mem_cons_of_mem u hv)
    rcases hq with ⟨v, hv, hvq⟩
    rcases List.mem_cons.mp hv with rfl | hv1
    · by_cases hq2 : ∃ w ∈ rest, w.path = q
      · exact ih _ hrest q hq2
      · have hstep : ∀ w ∈ rest, w.path ≠ q := by
          intro w hw
          exact fun hwq => hq2 ⟨w, hw, hwq⟩
        rw [rollbackWrites_lookup_uncovered bad rest _ q hstep]
        subst hvq
        rw [fsRead, aLookup_aInsert_self]
        exact hu.2.symm
    · exact ih _ hrest q ⟨v, hv1, hvq⟩

theorem writeBacklinks_error (bad : FPath → Bool) (fs0 : FS) :
    ∀ (todo : List BacklinkUpdate) (fs : FS) (done : List BacklinkUpdate)
      (e : WriterErr) (fs2 : FS),
      (∀ u ∈ done, bad u.path = false ∧ fsRead fs0 u.path = some u.old_content) →
      (∀ u ∈ todo, fsRead fs0 u.path = some u.old_content) →
      (∀ q, (∀ u ∈ done, u.path ≠ q) → fsRead fs q = fsRead fs0 q) →
      writeBacklinks bad fs done todo = (some e, fs2) →
      ∀ q, fsRead fs2 q = fsRead fs0 q := by
  intro todo
  induction todo with
  | nil =>
    intro fs done e fs2 _ _ _ hrun
    exact absurd hrun (by simp [writeBacklinks])
  | cons u rest ih =>
    intro fs done e fs2 hdone htodo hinv hrun q
    unfold writeBacklinks atomic_write at hrun
    by_cases hb : bad u.path
    · rw [if_pos hb] at hrun
      simp only [Prod.mk.injEq] at hrun
      rw [← hrun.2]
      by_cases hq : ∃ w ∈ done, w.path = q
      · exact rollbackWrites_lookup_covered bad (fsRead fs0) done fs hdone q hq
      · have hstep : ∀ w ∈ done, w.path ≠ q := fun w hw hwq => hq ⟨w, hw, hwq⟩
        rw [rollbackWrites_lookup_uncovered bad done fs q hstep]
        exact hinv q hstep
    · rw [if_neg hb] at hrun
      refine ih _ (u :: done) e fs2 ?_ ?_ ?_ hrun q
      · intro v hv
        rcases List.mem_cons.mp hv with rfl | hv1
        · exact ⟨Bool.eq_false_iff.mpr hb, htodo v (by simp)⟩
        · exact hdone v hv1
      · exact fun v hv => htodo v (List.mem_cons_of_mem u hv)
      · intro q1 hq1
        have hu : u.path ≠ q1 := hq1 u (by simp)
        rw [fsRead, aLookup_aInsert_ne _ _ _ _ hu]
        exact hinv q1 (fun w hw => hq1 w (List.mem_cons_of_mem u hw))

theorem writeBacklinks_frame (bad : FPath → Bool) (fs0 : FS) :
    ∀ (todo : List BacklinkUpdate) (fs : FS) (done : List BacklinkUpdate),
      (∀ u ∈ done, bad u.path = false ∧ fsRead fs0 u.path = some u.old_content) →
      (∀ u ∈ todo, fsRead fs0 u.path = some u.old_content) →
      (∀ q, (∀ u ∈ done, u.path ≠ q) → fsRead fs q = fsRead fs0 q) →
      ∀ q, (∀ u ∈ done, u.path ≠ q) → (∀ u ∈ todo, u.path ≠ q) →
        fsRead (writeBacklinks bad fs done todo).2 q = fsRead fs0 q := by
  intro todo
  induction todo with
  | nil =>
    intro fs done _ _ hinv q hq _
    exact hinv q hq
  | cons u rest ih =>
    intro fs done hdone htodo hinv q hqdone hqtodo
    unfold writeBacklinks atomic_write
    by_cases hb : bad u.path
    · rw [if_pos hb]
      simp only
      rw [rollbackWrites_lookup_uncovered bad done fs q hqdone]
      exact hinv q hqdone
    · rw [if_neg hb]
      simp only
      refine ih _ (u :: done) ?_ ?_ ?_ q ?_ ?_
      · intro v hv
        rcases List.mem_cons.mp hv with rfl | hv1
        · exact ⟨Bool.eq_false_iff.mpr hb, htodo v (by simp)⟩
        · exact hdone v hv1
      · exact fun v hv => htodo v (List.mem_cons_of_mem u hv)
      · intro q1 hq1
        have hu : u.path ≠ q1 := hq1 u (by simp)
        rw [fsRead, aLookup_aInsert_ne _ _ _ _ hu]
        exact hinv q1 (fun w hw => hq1 w (List.mem_cons_of_mem u hw))
      · intro v hv
        rcases List.mem_cons.mp hv with rfl | hv1
        · exact hqtodo v (by simp)
        · exact hqdone v hv1
      · exact fun v hv => hqtodo v (List.mem_cons_of_mem u hv)

theorem update_backlinks_error (bad : FPath → Bool) (fs : FS)
    (old_path new_path : FPath) (backlinks : List FPath) (e : WriterErr) (fs2 : FS)
    (hrun : update_backlinks_for_rename bad fs old_path new_path backlinks = (some e, fs2)) :
    ∀ q, fsRead fs2 q = fsRead fs q := by
  unfold update_backlinks_for_rename at hrun
  by_cases hmd : is_markdown_file old_path
  · rw [if_pos hmd] at hrun
    refine writeBacklinks_error bad fs _ fs [] e fs2 (by simp) ?_ (fun _ _ => rfl) hrun
    intro u hu
    exact (prepare_updates_mem hu).2.1
  · rw [if_neg hmd] at hrun
    exact absurd hrun (by simp)

theorem update_backlinks_frame (bad : FPath → Bool) (fs : FS)
    (old_path new_path : FPath) (backlinks : List FPath) (q : FPath)
    (hq : ∀ u ∈ prepare_updates fs backlinks
        (file_stem_string old_path) (file_stem_string new_path), u.path ≠ q) :
    fsRead (update_backlinks_for_rename bad fs old_path new_path backlinks).2 q
      = fsRead fs q := by
  unfold update_backlinks_for_rename
  by_cases hmd : is_markdown_file old_path
  · rw [if_pos hmd]
    refine writeBacklinks_frame bad fs _ fs [] (by simp) ?_ (fun _ _ => rfl) q (by simp) hq
    intro u hu
    exact (prepare_updates_mem hu).2.1
  · rw [if_neg hmd]

/-- Claim C3: when the backlink-rewrite phase of a rename transaction fails,
`execute_rename_or_move` returns the original error of that phase, the primary
rename is reversed, and the whole filesystem — in particular every backlink
file already rewritten in the transaction, and every one not yet written — is
back to its exact original content.  (Rollback writes target paths whose
earlier write succeeded, so with the per-path failure oracle they succeed, the
claim's proviso.) -/
theorem C3_rename_rollback (bad : FPath → Bool) (fs : FS)
    (old_path new_path : FPath) (backlinks : List FPath) (c : Str)
    (e : WriterErr) (fsFin : FS)
    (hold : fsRead fs old_path = some c)
    (hnew : fsRead fs new_path = none)
    (hrun : execute_rename_or_move bad fs old_path new_path backlinks
      = (.error e, fsFin)) :
    (update_backlinks_for_rename bad (aInsert new_path c (eraseKey old_path fs))
        old_path new_path backlinks).1 = some e ∧
      ∀ q, fsRead fsFin q = fsRead fs q := by
  have hne : old_path ≠ new_path := by
    intro h
    rw [h, hnew] at hold
    exact absurd hold (by simp)
  unfold execute_rename_or_move at hrun
  rw [hnew] at hrun
  simp only [Option.isSome_none, Bool.false_eq_true, if_false, hold] at hrun
  set fs1 := aInsert new_path c (eraseKey old_path fs) with hfs1
  match hub : update_backlinks_for_rename bad fs1 old_path new_path backlinks with
  | (none, fs2) =>
    rw [hub] at hrun
    exact absurd hrun (by simp)
  | (some e1, fs2) =>
    rw [hub] at hrun
    have hfs2 : ∀ q, fsRead fs2 q = fsRead fs1 q :=
      update_backlinks_error bad fs1 old_path new_path backlinks e1 fs2 hub
    have hfs2new : fsRead fs2 new_path = some c := by
      rw [hfs2 new_path, hfs1, fsRead, aLookup_aInsert_self]
    simp only [hfs2new] at hrun
    simp only [Prod.mk.injEq, Except.error.injEq] at hrun
    rcases hrun with ⟨rfl, hfin⟩
    refine ⟨by simp [hub], ?_⟩
    intro q
    rw [← hfin]
    by_cases hq1 : q = old_path
    · subst hq1
      rw [fsRead, aLookup_aInsert_self, hold]
    · rw [fsRead, aLookup_aInsert_ne _ _ _ _ (fun h => hq1 h.symm)]
      by_cases hq2 : q = new_path
      · subst hq2
        rw [aLookup_eraseKey_self, hnew]
      · rw [aLookup_eraseKey_ne _ _ _ (fun h => hq2 h.symm)]
        rw [← fsRead, hfs2 q, hfs1, fsRead,
          aLookup_aInsert_ne _ _ _ _ (fun h => hq2 h.symm),
          aLookup_eraseKey_ne _ _ _ (fun h => hq1 h.symm)]
        rfl

/-- Witness for C3: a concrete two-backlink transaction in which the first
backlink write succeeds, the second fails, and the first backlink file (and
the renamed page) are observed restored, with the original error returned. -/
theorem C3_rename_rollback_witness :
    fsRead (execute_rename_or_move (fun p => decide (p = [ "B2.md".data ]))
        [ ([ "Page One.md".data ], "body".data),
          ([ "B1.md".data ], "a [[Page One]] b".data),
          ([ "B2.md".data ], "c [[page one|X]] d".data) ]
        [ "Page One.md".data ] [ "New Name.md".data ]
        [ [ "B1.md".data ], [ "B2.md".data ] ]).2 [ "B1.md".data ]
      = some "a [[Page One]] b".data := by
  have h := C3_rename_rollback (fun p => decide (p = [ "B2.md".data ]))
    [ ([ "Page One.md".data ], "body".data),
      ([ "B1.md".data ], "a [[Page One]] b".data),
      ([ "B2.md".data ], "c [[page one|X]] d".data) ]
    [ "Page One.md".data ] [ "New Name.md".data ]
    [ [ "B1.md".data ], [ "B2.md".data ] ] "body".data
    (.ioError [ "B2.md".data ])
    (execute_rename_or_move (fun p => decide (p = [ "B2.md".data ]))
      [ ([ "Page One.md".data ], "body".data),
        ([ "B1.md".data ], "a [[Page One]] b".data),
        ([ "B2.md".data ], "c [[page one|X]] d".data) ]
      [ "Page One.md".data ] [ "New Name.md".data ]
      [ [ "B1.md".data ], [ "B2.md".data ] ]).2
    (by decide) (by decide) rfl
  rw [h.2 [ "B1.md".data ]]
  decide

/-- Claim C10: during the backlink-update phase of a rename, a file whose
current content contains no wikilink targeting the old stem
(case-insensitively) is never written: its rewrite is computed as unchanged
and it is excluded from the write phase and from any rollback.  Moreover only
files of the supplied backlink set whose rewrite actually changes their
content are ever modified. -/
theorem C10_unchanged_backlink_untouched (bad : FPath → Bool) (fs : FS)
    (old_path new_path : FPath) (backlinks : List FPath) (q : FPath)
    (hq : ∀ m ∈ wikilinkMatches ((fsRead fs q).getD []),
      lcase m.target ≠ lcase (file_stem_string old_path)) :
    fsRead (update_backlinks_for_rename bad fs old_path new_path backlinks).2 q
        = fsRead fs q ∧
      ∀ q1, fsRead (update_backlinks_for_rename bad fs old_path new_path backlinks).2 q1
          ≠ fsRead fs q1 →
        ∃ c, fsRead fs q1 = some c ∧ q1 ∈ backlinks ∧
          replace_wikilink_in_content c (file_stem_string old_path)
            (file_stem_string new_path) ≠ none := by
  constructor
  · refine update_backlinks_frame bad fs old_path new_path backlinks q ?_
    intro u hu hupq
    rcases prepare_updates_mem hu with ⟨_, hread, hrep⟩
    rw [hupq] at hread
    have : (fsRead fs q).getD [] = u.old_content := by rw [hread]; rfl
    rw [this] at hq
    rw [replace_wikilink_in_content_none u.old_content _ _
      (fun m hm => hq m hm)] at hrep
    exact absurd hrep (by simp)
  · intro q1 hch
    by_contra hno
    refine hch (update_backlinks_frame bad fs old_path new_path backlinks q1 ?_)
    intro u hu hupq
    rcases prepare_updates_mem hu with ⟨hbl, hread, hrep⟩
    rw [hupq] at hread hbl
    exact hno ⟨u.old_content, hread, hbl, by rw [hrep]; simp⟩

/-- Witness for C10: a concrete backlink set in which one file has no link to
the renamed page; after the transaction its content is observed unchanged. -/
theorem C10_unchanged_backlink_untouched_witness :
    fsRead (update_backlinks_for_rename (fun _ => false)
        [ ([ "Q.md".data ], "see [[Other]] x".data),
          ([ "B.md".data ], "see [[Page One]]".data) ]
        [ "Page One.md".data ] [ "New.md".data ]
        [ [ "Q.md".data ], [ "B.md".data ] ]).2 [ "Q.md".data ]
      = some "see [[Other]] x".data := by
  have h := C10_unchanged_backlink_untouched (fun _ => false)
    [ ([ "Q.md".data ], "see [[Other]] x".data),
      ([ "B.md".data ], "see [[Page One]]".data) ]
    [ "Page One.md".data ] [ "New.md".data ]
    [ [ "Q.md".data ], [ "B.md".data ] ] [ "Q.md".data ] (by decide)
  rw [h.1]
  decide


/-!
The indexer of `indexer.rs`: pages, tags, link resolver, link graph, and the
relation rebuild.  Frontmatter values (`serde_json::Value`) are opaque to
everything modelled here; they are represented by an `Option Nat` token
(`none` standing for `Value::Null`, as used by the stub pages).
-/

/-- A wikilink inside a page (struct `Link` of `models.rs`): target, optional
section, optional alias, optional source position (line, column). -/
structure Link where
  target : Str
  sec : Option Str
  al : Option Str
  pos : Option (Nat × Nat)
deriving DecidableEq, Repr

/-- A page of the vault (struct `Page` of `models.rs`).  `tags` and
`backlinks` carry set semantics; `links` is an ordered list in which
duplicates are meaningful. -/
structure Page where
  path : FPath
  title : Str
  tags : List Str
  links : List Link
  backlinks : List FPath
  fm : Option Nat
deriving DecidableEq, Repr

/-- The aggregate state of the `Indexer` struct. -/
structure Indexer where
  pages : List (FPath × Page)
  tags : List (Str × List FPath)
  link_resolver : List (Str × FPath)
  link_graph : List (FPath × List (FPath × List Link))
deriving DecidableEq

/-- Link resolution against a resolver map (`resolve_link`): exact,
case-insensitive lookup of the target. -/
def resolveWith (r : List (Str × FPath)) (l : Link) : Option FPath :=
  aLookup r (lcase l.target)

/-- The `resolve_link` method of the indexer. -/
def resolve_link (st : Indexer) (l : Link) : Option FPath :=
  resolveWith st.link_resolver l

/-- The `rebuild_link_resolver` pass: lowercased file stem of every page key,
later entries overwriting earlier ones exactly as repeated `HashMap::insert`
does. -/
def rebuild_link_resolver (P : List (FPath × Page)) : List (Str × FPath) :=
  P.foldl (fun r kv =>
    match pathFileStem kv.1 with
    | some stem => aInsert (lcase stem) kv.1 r
    | none => r) []

/-- Registers one page's tags into the tag map. -/
def addTags (src : FPath) (tgs : List Str) (tm : List (Str × List FPath)) :
    List (Str × List FPath) :=
  tgs.foldl (fun tm t => aUpd tm t (setIns src) []) tm

/-- Registers one page's outgoing links into the link graph and the backlink
accumulator. -/
def addLinks (r : List (Str × FPath)) (src : FPath) (ls : List Link)
    (gb : List (FPath × List (FPath × List Link)) × List (FPath × List FPath)) :
    List (FPath × List (FPath × List Link)) × List (FPath × List FPath) :=
  ls.foldl (fun gb l =>
    match resolveWith r l with
    | some tgt =>
      (aUpd gb.1 src (fun m => aUpd m tgt (fun v => v ++ [l]) []) [],
       aUpd gb.2 tgt (setIns src) [])
    | none => gb) gb

/-- The `rebuild_relations` method: rebuild the resolver, then derive tags,
link graph and backlinks from scratch in one pass over the pages, and finally
swap the fresh structures in, overwriting every page's backlink set. -/
def rebuild_relations (P : List (FPath × Page)) : Indexer :=
  let r := rebuild_link_resolver P
  let acc := P.foldl (fun acc kv =>
    (addTags kv.1 kv.2.tags acc.1, addLinks r kv.1 kv.2.links acc.2)) ([], ([], []))
  { pages := P.map (fun kv =>
      (kv.1, { kv.2 with backlinks := (aLookup acc.2.2 kv.1).getD [] })),
    tags := acc.1,
    link_resolver := r,
    link_graph := acc.2.1 }

/-- Lookup of the ordered link list recorded in the graph for one
source/target edge. -/
def graphGet (g : List (FPath × List (FPath × List Link))) (s t : FPath) :
    List Link :=
  (aLookup ((aLookup g s).getD []) t).getD []

/-- Lookup of a backlink accumulator entry. -/
def blGet (b : List (FPath × List FPath)) (t : FPath) : List FPath :=
  (aLookup b t).getD []

/-- Lookup of a tag entry. -/
def tagGet (tm : List (Str × List FPath)) (t : Str) : List FPath :=
  (aLookup tm t).getD []

/-- Lowercased stem of a path, the resolver key it contributes. -/
def stemLower (p : FPath) : Option Str :=
  (pathFileStem p).map lcase

section MapFacts

variable {κ : Type} {β : Type} [DecidableEq κ]

theorem aLookup_eq_none_iff (m : List (κ × β)) (k : κ) :
    aLookup m k = none ↔ k ∉ m.map Prod.fst := by
  induction m with
  | nil => simp [aLookup_nil]
  | cons kv rest ih =>
    rcases kv with ⟨k1, v⟩
    rw [aLookup_cons]
    by_cases h : k1 = k
    · subst h
      simp
    · rw [if_neg h, ih]
      simp only [List.map_cons, List.mem_cons]
      constructor
      · intro h1 h2
        rcases h2 with h2 | h2
        · exact h h2.symm
        · exact h1 h2
      · intro h1 h2
        exact h1 (Or.inr h2)

theorem aLookup_eq_some_of_mem (m : List (κ × β)) (k : κ) (v : β)
    (hnd : (m.map Prod.fst).Nodup) (h : (k, v) ∈ m) : aLookup m k = some v := by
  induction m with
  | nil => simp at h
  | cons kv rest ih =>
    rcases kv with ⟨k1, v1⟩
    simp only [List.map_cons, List.nodup_cons] at hnd
    rw [aLookup_cons]
    rcases List.mem_cons.mp h with heq | hmem
    · rw [Prod.mk.injEq] at heq
      rw [if_pos heq.1.symm, heq.2]
    · have hk : k1 ≠ k := by
        intro hkk
        subst hkk
        exact hnd.1 (by simpa using List.mem_map_of_mem Prod.fst hmem)
      rw [if_neg hk]
      exact ih hnd.2 hmem

theorem aLookup_mem (m : List (κ × β)) (k : κ) (v : β)
    (h : aLookup m k = some v) : (k, v) ∈ m := by
  induction m with
  | nil => simp [aLookup_nil] at h
  | cons kv rest ih =>
    rcases kv with ⟨k1, v1⟩
    rw [aLookup_cons] at h
    by_cases hk : k1 = k
    · rw [if_pos hk] at h
      subst hk
      simp only [Option.some.injEq] at h
      subst h
      exact List.mem_cons_self _ _
    · rw [if_neg hk] at h
      exact List.mem_cons_of_mem _ (ih h)

theorem exists_entry_iff_lookup (m : List (κ × β)) (k : κ) (Q : β → Prop)
    (hnd : (m.map Prod.fst).Nodup) :
    (∃ kv ∈ m, kv.1 = k ∧ Q kv.2) ↔ ∃ v, aLookup m k = some v ∧ Q v := by
  constructor
  · rintro ⟨⟨k1, v⟩, hmem, rfl, hQ⟩
    exact ⟨v, aLookup_eq_some_of_mem m _ v hnd hmem, hQ⟩
  · rintro ⟨v, hv, hQ⟩
    exact ⟨(k, v), aLookup_mem m k v hv, rfl, hQ⟩

theorem aLookup_map_entry {γ : Type} (f : κ → β → γ) (m : List (κ × β)) (k : κ) :
    aLookup (m.map (fun kv => (kv.1, f kv.1 kv.2))) k = (aLookup m k).map (f k) := by
  induction m with
  | nil => simp [aLookup_nil]
  | cons kv rest ih =>
    rcases kv with ⟨k1, v⟩
    simp only [List.map_cons]
    rw [aLookup_cons, aLookup_cons]
    by_cases h : k1 = k
    · subst h; simp
    · simp [h, ih]

end MapFacts

theorem rebuildFold_proj (r : List (Str × FPath)) (P : List (FPath × Page))
    (tm0 : List (Str × List FPath))
    (gb0 : List (FPath × List (FPath × List Link)) × List (FPath × List FPath)) :
    P.foldl (fun acc kv =>
        (addTags kv.1 kv.2.tags acc.1, addLinks r kv.1 kv.2.links acc.2)) (tm0, gb0)
      = (P.foldl (fun tm kv => addTags kv.1 kv.2.tags tm) tm0,
         P.foldl (fun gb kv => addLinks r kv.1 kv.2.links gb) gb0) := by
  induction P generalizing tm0 gb0 with
  | nil => rfl
  | cons kv rest ih => simp [List.foldl_cons, ih]

theorem mem_addTags (src : FPath) (tgs : List Str) (tm : List (Str × List FPath))
    (t : Str) (p : FPath) :
    p ∈ tagGet (addTags src tgs tm) t ↔ (t ∈ tgs ∧ p = src) ∨ p ∈ tagGet tm t := by
  induction tgs generalizing tm with
  | nil => simp [addTags]
  | cons t1 tgs ih =>
    show p ∈ tagGet (addTags src tgs (aUpd tm t1 (setIns src) [])) t ↔ _
    rw [ih]
    simp only [List.mem_cons]
    by_cases h : t1 = t
    · subst h
      have : tagGet (aUpd tm t1 (setIns src) []) t1 = setIns src (tagGet tm t1) := by
        rw [tagGet, aLookup_aUpd_self]
        rfl
      rw [this, mem_setIns]
      constructor
      · rintro (h1 | h1)
        · exact Or.inl ⟨Or.inr h1.1, h1.2⟩
        · rcases h1 with h1 | h1
          · exact Or.inl ⟨Or.inl rfl, h1⟩
          · exact Or.inr h1
      · rintro (⟨h1 | h1, h2⟩ | h1)
        · exact Or.inr (Or.inl h2)
        · exact Or.inl ⟨h1, h2⟩
        · exact Or.inr (Or.inr h1)
    · have : tagGet (aUpd tm t1 (setIns src) []) t = tagGet tm t := by
        rw [tagGet, aLookup_aUpd_ne _ _ _ _ _ h]
        rfl
      rw [this]
      constructor
      · rintro (h1 | h1)
        · exact Or.inl ⟨Or.inr h1.1, h1.2⟩
        · exact Or.inr h1
      · rintro (⟨h1 | h1, h2⟩ | h1)
        · exact absurd h1.symm h
        · exact Or.inl ⟨h1, h2⟩
        · exact Or.inr h1

theorem mem_foldTags (P : List (FPath × Page)) (tm0 : List (Str × List FPath))
    (t : Str) (p : FPath) :
    p ∈ tagGet (P.foldl (fun tm kv => addTags kv.1 kv.2.tags tm) tm0) t ↔
      (∃ kv ∈ P, kv.1 = p ∧ t ∈ kv.2.tags) ∨ p ∈ tagGet tm0 t := by
  induction P generalizing tm0 with
  | nil =>
    rw [List.foldl_nil]
    constructor
    · exact Or.inr
    · rintro (⟨w, hw, h1⟩ | h1)
      · exact absurd hw (List.not_mem_nil w)
      · exact h1
  | cons kv rest ih =>
    rw [List.foldl_cons, ih, mem_addTags]
    constructor
    · rintro (⟨w, hw, h1, h2⟩ | ⟨h1, h2⟩ | h1)
      · exact Or.inl ⟨w, List.mem_cons_of_mem kv hw, h1, h2⟩
      · exact Or.inl ⟨kv, List.mem_cons_self kv rest, h2.symm, h1⟩
      · exact Or.inr h1
    · rintro (⟨w, hw, h1, h2⟩ | h1)
      · rcases List.mem_cons.mp hw with rfl | hw1
        · exact Or.inr (Or.inl ⟨h2, h1.symm⟩)
        · exact Or.inl ⟨w, hw1, h1, h2⟩
      · exact Or.inr (Or.inr h1)

theorem graphGet_aUpd_push (g : List (FPath × List (FPath × List Link)))
    (src tgt : FPath) (l : Link) (s t : FPath) :
    graphGet (aUpd g src (fun m => aUpd m tgt (fun v => v ++ [l]) []) []) s t
      = graphGet g s t ++ (if s = src ∧ tgt = t then [l] else []) := by
  by_cases hs : s = src
  · subst hs
    unfold graphGet
    rw [aLookup_aUpd_self]
    simp only [Option.getD_some]
    by_cases ht : tgt = t
    · subst ht
      rw [aLookup_aUpd_self]
      simp
    · rw [aLookup_aUpd_ne _ _ _ _ _ ht]
      simp [ht]
  · unfold graphGet
    rw [aLookup_aUpd_ne _ _ _ _ _ (fun h => hs h.symm)]
    rw [if_neg (fun h : s = src ∧ tgt = t => hs h.1)]
    simp

theorem graphGet_addLinks (r : List (Str × FPath)) (src : FPath) (ls : List Link)
    (gb : List (FPath × List (FPath × List Link)) × List (FPath × List FPath))
    (s t : FPath) :
    graphGet (addLinks r src ls gb).1 s t
      = graphGet gb.1 s t ++
          (if s = src then ls.filter (fun l => decide (resolveWith r l = some t))
           else []) := by
  induction ls generalizing gb with
  | nil => simp [addLinks]
  | cons l ls ih =>
    have hstep : addLinks r src (l :: ls) gb = addLinks r src ls
        (match resolveWith r l with
         | some tgt => (aUpd gb.1 src (fun m => aUpd m tgt (fun v => v ++ [l]) []) [],
                        aUpd gb.2 tgt (setIns src) [])
         | none => gb) := rfl
    rw [hstep, List.filter_cons]
    rcases hres : resolveWith r l with _ | tgt
    · simp only [hres]
      rw [ih]
      simp
    · simp only [hres]
      rw [ih]
      simp only
      rw [graphGet_aUpd_push]
      by_cases hs : s = src
      · subst hs
        by_cases ht : tgt = t
        · subst ht
          simp [List.append_assoc]
        · simp [ht]
      · rw [if_neg (fun h : s = src ∧ tgt = t => hs h.1)]
        simp [hs]

theorem mem_blGet_addLinks (r : List (Str × FPath)) (src : FPath) (ls : List Link)
    (gb : List (FPath × List (FPath × List Link)) × List (FPath × List FPath))
    (t q : FPath) :
    q ∈ blGet (addLinks r src ls gb).2 t ↔
      (q = src ∧ ∃ l ∈ ls, resolveWith r l = some t) ∨ q ∈ blGet gb.2 t := by
  induction ls generalizing gb with
  | nil => simp [addLinks]
  | cons l ls ih =>
    have hstep : addLinks r src (l :: ls) gb = addLinks r src ls
        (match resolveWith r l with
         | some tgt => (aUpd gb.1 src (fun m => aUpd m tgt (fun v => v ++ [l]) []) [],
                        aUpd gb.2 tgt (setIns src) [])
         | none => gb) := rfl
    rw [hstep]
    rcases hres : resolveWith r l with _ | tgt
    · simp only [hres]
      rw [ih]
      constructor
      · rintro (⟨h1, w, hw, h2⟩ | h1)
        · exact Or.inl ⟨h1, w, List.mem_cons_of_mem l hw, h2⟩
        · exact Or.inr h1
      · rintro (⟨h1, w, hw, h2⟩ | h1)
        · rcases List.mem_cons.mp hw with rfl | hw1
          · rw [hres] at h2
            exact absurd h2 (by simp)
          · exact Or.inl ⟨h1, w, hw1, h2⟩
        · exact Or.inr h1
    · simp only [hres]
      rw [ih]
      have hbl : q ∈ blGet (aUpd gb.2 tgt (setIns src) []) t ↔
          (t = tgt ∧ q = src) ∨ q ∈ blGet gb.2 t := by
        by_cases ht : tgt = t
        · subst ht
          unfold blGet
          rw [aLookup_aUpd_self]
          simp only [Option.getD_some]
          rw [mem_setIns]
          tauto
        · unfold blGet
          rw [aLookup_aUpd_ne _ _ _ _ _ ht]
          constructor
          · exact fun h => Or.inr h
          · rintro (⟨h1, _⟩ | h1)
            · exact absurd h1.symm ht
            · exact h1
      rw [hbl]
      constructor
      · rintro (⟨h1, w, hw, h2⟩ | ⟨h1, h2⟩ | h1)
        · exact Or.inl ⟨h1, w, List.mem_cons_of_mem l hw, h2⟩
        · exact Or.inl ⟨h2, l, List.mem_cons_self l ls, by rw [hres, h1]⟩
        · exact Or.inr h1
      · rintro (⟨h1, w, hw, h2⟩ | h1)
        · rcases List.mem_cons.mp hw with rfl | hw1
          · rw [hres] at h2
            simp only [Option.some.injEq] at h2
            exact Or.inr (Or.inl ⟨h2.symm, h1⟩)
          · exact Or.inl ⟨h1, w, hw1, h2⟩
        · exact Or.inr (Or.inr h1)

theorem graphGet_foldLinks (r : List (Str × FPath)) (P : List (FPath × Page))
    (gb0 : List (FPath × List (FPath × List Link)) × List (FPath × List FPath))
    (s t : FPath) (hnd : (P.map Prod.fst).Nodup) :
    graphGet (P.foldl (fun gb kv => addLinks r kv.1 kv.2.links gb) gb0).1 s t
      = graphGet gb0.1 s t ++
          (match aLookup P s with
           | some pg => pg.links.filter (fun l => decide (resolveWith r l = some t))
           | none => []) := by
  induction P generalizing gb0 with
  | nil => simp [aLookup_nil]
  | cons kv rest ih =>
    simp only [List.map_cons, List.nodup_cons] at hnd
    rw [List.foldl_cons, ih _ hnd.2, graphGet_addLinks]
    rcases kv with ⟨k1, pg1⟩
    rw [aLookup_cons]
    by_cases hk : k1 = s
    · subst hk
      rw [if_pos rfl, if_pos rfl]
      have : aLookup rest k1 = none :=
        (aLookup_eq_none_iff rest k1).mpr hnd.1
      rw [this]
      simp [List.append_assoc]
    · rw [if_neg hk, if_neg (fun h : s = k1 => hk h.symm)]
      simp

theorem mem_blGet_foldLinks (r : List (Str × FPath)) (P : List (FPath × Page))
    (gb0 : List (FPath × List (FPath × List Link)) × List (FPath × List FPath))
    (t q : FPath) :
    q ∈ blGet (P.foldl (fun gb kv => addLinks r kv.1 kv.2.links gb) gb0).2 t ↔
      (∃ kv ∈ P, kv.1 = q ∧ ∃ l ∈ kv.2.links, resolveWith r l = some t) ∨
        q ∈ blGet gb0.2 t := by
  induction P generalizing gb0 with
  | nil =>
    rw [List.foldl_nil]
    constructor
    · exact Or.inr
    · rintro (⟨w, hw, h1⟩ | h1)
      · exact absurd hw (List.not_mem_nil w)
      · exact h1
  | cons kv rest ih =>
    rw [List.foldl_cons, ih, mem_blGet_addLinks]
    constructor
    · rintro (⟨w, hw, h1, h2⟩ | ⟨h1, h2⟩ | h1)
      · exact Or.inl ⟨w, List.mem_cons_of_mem kv hw, h1, h2⟩
      · exact Or.inl ⟨kv, List.mem_cons_self kv rest, h1.symm, h2⟩
      · exact Or.inr h1
    · rintro (⟨w, hw, h1, h2⟩ | h1)
      · rcases List.mem_cons.mp hw with rfl | hw1
        · exact Or.inr (Or.inl ⟨h1.symm, h2⟩)
        · exact Or.inl ⟨w, hw1, h1, h2⟩
      · exact Or.inr (Or.inr h1)

/-- One step of the resolver rebuild. -/
def resStep (r : List (Str × FPath)) (kv : FPath × Page) : List (Str × FPath) :=
  match pathFileStem kv.1 with
  | some stem => aInsert (lcase stem) kv.1 r
  | none => r

theorem rebuild_link_resolver_eq (P : List (FPath × Page)) :
    rebuild_link_resolver P = P.foldl resStep [] := rfl

/-- Stem-injectivity of a pages list: no two distinct page paths share a
lowercased file stem.  When two pages do share a stem, link resolution is
order dependent — the specification records this as a known open issue. -/
def stemInj (P : List (FPath × Page)) : Prop :=
  ∀ kv1 ∈ P, ∀ kv2 ∈ P, stemLower kv1.1 = stemLower kv2.1 → kv1.1 = kv2.1

theorem resolver_skip (P : List (FPath × Page)) (r0 : List (Str × FPath)) (n : Str)
    (h : ∀ kv ∈ P, stemLower kv.1 ≠ some n) :
    aLookup (P.foldl resStep r0) n = aLookup r0 n := by
  induction P generalizing r0 with
  | nil => rfl
  | cons kv rest ih =>
    rw [List.foldl_cons]
    rw [ih _ (fun w hw => h w (List.mem_cons_of_mem kv hw))]
    unfold resStep
    rcases hst : pathFileStem kv.1 with _ | stem
    · rfl
    · have : lcase stem ≠ n := by
        intro hn
        exact h kv (List.mem_cons_self kv rest) (by simp [stemLower, hst, hn])
      rw [aLookup_aInsert_ne _ _ _ _ this]

theorem resolver_found (P : List (FPath × Page)) (r0 : List (Str × FPath))
    (n : Str) (q : FPath) (hnd : (P.map Prod.fst).Nodup) (hinj : stemInj P)
    (h : ∃ kv ∈ P, kv.1 = q ∧ stemLower kv.1 = some n) :
    aLookup (P.foldl resStep r0) n = some q := by
  induction P generalizing r0 with
  | nil =>
    rcases h with ⟨w, hw, _⟩
    exact absurd hw (List.not_mem_nil w)
  | cons kv rest ih =>
    simp only [List.map_cons, List.nodup_cons] at hnd
    rw [List.foldl_cons]
    rcases h with ⟨w, hw, hwq, hwn⟩
    rcases List.mem_cons.mp hw with rfl | hw1
    · have hskip : ∀ kv2 ∈ rest, stemLower kv2.1 ≠ some n := by
        intro kv2 hkv2 hn
        have heq : kv2.1 = w.1 := hinj kv2 (List.mem_cons_of_mem w hkv2) w
          (List.mem_cons_self w rest) (by rw [hn, hwn])
        exact hnd.1 (heq ▸ List.mem_map_of_mem Prod.fst hkv2)
      rw [resolver_skip rest _ n hskip]
      rcases Option.map_eq_some'.mp hwn with ⟨stem, hst, hls⟩
      subst hwq
      simp only [resStep, hst, hls]
      exact aLookup_aInsert_self n w.1 r0
    · exact ih (resStep r0 kv) hnd.2
        (fun a ha b hb =>
          hinj a (List.mem_cons_of_mem kv ha) b (List.mem_cons_of_mem kv hb))
        ⟨w, hw1, hwq, hwn⟩

theorem resolver_mem (P : List (FPath × Page)) (r0 : List (Str × FPath))
    (n : Str) (q : FPath)
    (h : aLookup (P.foldl resStep r0) n = some q) :
    (∃ kv ∈ P, kv.1 = q ∧ stemLower kv.1 = some n) ∨ aLookup r0 n = some q := by
  induction P generalizing r0 with
  | nil => exact Or.inr h
  | cons kv rest ih =>
    rw [List.foldl_cons] at h
    rcases ih _ h with h1 | h1
    · rcases h1 with ⟨w, hw, h2⟩
      exact Or.inl ⟨w, List.mem_cons_of_mem kv hw, h2⟩
    · rcases hst : pathFileStem kv.1 with _ | stem
      · simp only [resStep, hst] at h1
        exact Or.inr h1
      · simp only [resStep, hst] at h1
        by_cases hn : lcase stem = n
        · rw [hn] at h1
          rw [aLookup_aInsert_self] at h1
          simp only [Option.some.injEq] at h1
          exact Or.inl ⟨kv, List.mem_cons_self kv rest, h1,
            by simp [stemLower, hst, hn]⟩
        · rw [aLookup_aInsert_ne _ _ _ _ hn] at h1
          exact Or.inr h1

theorem resolver_iff (P : List (FPath × Page)) (n : Str) (q : FPath)
    (hnd : (P.map Prod.fst).Nodup) (hinj : stemInj P) :
    aLookup (rebuild_link_resolver P) n = some q ↔
      ∃ kv ∈ P, kv.1 = q ∧ stemLower kv.1 = some n := by
  rw [rebuild_link_resolver_eq]
  constructor
  · intro h
    rcases resolver_mem P [] n q h with h1 | h1
    · exact h1
    · exact absurd h1 (by simp [aLookup_nil])
  · exact resolver_found P [] n q hnd hinj

/-- The graph/backlink accumulator of `rebuild_relations`. -/
def rebuildGB (P : List (FPath × Page)) :
    List (FPath × List (FPath × List Link)) × List (FPath × List FPath) :=
  P.foldl (fun gb kv => addLinks (rebuild_link_resolver P) kv.1 kv.2.links gb) ([], [])

theorem rebuild_relations_eq (P : List (FPath × Page)) :
    rebuild_relations P =
      { pages := P.map (fun kv =>
          (kv.1, { kv.2 with backlinks := blGet (rebuildGB P).2 kv.1 })),
        tags := P.foldl (fun tm kv => addTags kv.1 kv.2.tags tm) [],
        link_resolver := rebuild_link_resolver P,
        link_graph := (rebuildGB P).1 } := by
  simp only [rebuild_relations, rebuildFold_proj, rebuildGB, blGet]

theorem rebuild_pages_lookup (P : List (FPath × Page)) (p : FPath) :
    aLookup (rebuild_relations P).pages p
      = (aLookup P p).map (fun pg => { pg with backlinks := blGet (rebuildGB P).2 p }) := by
  rw [rebuild_relations_eq]
  exact aLookup_map_entry (fun k pg => { pg with backlinks := blGet (rebuildGB P).2 k }) P p

theorem rebuild_tags_mem (P : List (FPath × Page)) (t : Str) (p : FPath) :
    p ∈ tagGet (rebuild_relations P).tags t ↔
      ∃ kv ∈ P, kv.1 = p ∧ t ∈ kv.2.tags := by
  rw [rebuild_relations_eq]
  have := mem_foldTags P [] t p
  simp only [tagGet, aLookup_nil, Option.getD_none, List.not_mem_nil, or_false] at this
  exact this

theorem rebuild_graphGet (P : List (FPath × Page)) (s t : FPath)
    (hnd : (P.map Prod.fst).Nodup) :
    graphGet (rebuild_relations P).link_graph s t
      = (match aLookup P s with
         | some pg => pg.links.filter
             (fun l => decide (resolveWith (rebuild_link_resolver P) l = some t))
         | none => []) := by
  rw [rebuild_relations_eq]
  have := graphGet_foldLinks (rebuild_link_resolver P) P ([], []) s t hnd
  simp only [graphGet, aLookup_nil, Option.getD_none, List.nil_append] at this ⊢
  exact this

theorem rebuild_backlinks_mem (P : List (FPath × Page)) (T q : FPath)
    (pgT : Page) (hT : aLookup (rebuild_relations P).pages T = some pgT) :
    q ∈ pgT.backlinks ↔
      ∃ kv ∈ P, kv.1 = q ∧ ∃ l ∈ kv.2.links,
        resolveWith (rebuild_link_resolver P) l = some T := by
  rw [rebuild_pages_lookup] at hT
  rcases Option.map_eq_some'.mp hT with ⟨pg, _, hpg⟩
  rw [← hpg]
  show q ∈ blGet (rebuildGB P).2 T ↔ _
  unfold rebuildGB
  have := mem_blGet_foldLinks (rebuild_link_resolver P) P ([], []) T q
  simp only [blGet, aLookup_nil, Option.getD_none, List.not_mem_nil, or_false] at this
  exact this

/-- Claim C4: after `rebuild_relations`, a path `S` is in page `T`'s backlink
set exactly when the rebuilt link graph records a non-empty list of resolved
links from `S` to `T`.  (`HashMap` keys are unique, which the association-list
model states as `Nodup` of the page keys.) -/
theorem C4_backlinks_iff_graph_edge (P : List (FPath × Page))
    (hnd : (P.map Prod.fst).Nodup) (T : FPath) (pgT : Page) (S : FPath)
    (hT : aLookup (rebuild_relations P).pages T = some pgT) :
    S ∈ pgT.backlinks ↔ graphGet (rebuild_relations P).link_graph S T ≠ [] := by
  rw [rebuild_backlinks_mem P T S pgT hT, rebuild_graphGet P S T hnd]
  rw [exists_entry_iff_lookup P S (fun pg => ∃ l ∈ pg.links,
    resolveWith (rebuild_link_resolver P) l = some T) hnd]
  rcases hS : aLookup P S with _ | pgS
  · simp
  · simp only [Option.some.injEq]
    constructor
    · rintro ⟨v, hv, l, hl, hres⟩
      subst hv
      intro hfil
      have hmem : l ∈ pgS.links.filter
          (fun l => decide (resolveWith (rebuild_link_resolver P) l = some T)) := by
        rw [List.mem_filter]
        exact ⟨hl, by simp [hres]⟩
      rw [hfil] at hmem
      exact absurd hmem (List.not_mem_nil l)
    · intro hfil
      rcases List.exists_mem_of_ne_nil _ hfil with ⟨l, hl⟩
      rw [List.mem_filter] at hl
      exact ⟨pgS, rfl, l, hl.1, by simpa using hl.2⟩

/-- Witness for C4: a concrete two-page vault in which page A links to page B;
after a rebuild, A is in B's backlinks and the A→B graph edge is non-empty. -/
theorem C4_backlinks_iff_graph_edge_witness :
    Page.mk [ "B.md".data ] "B".data [] [] [ [ "A.md".data ] ] none ∈
      [ ([ "A.md".data ],
          Page.mk [ "A.md".data ] "A".data []
            [ Link.mk "B".data none none none ] [] none),
        ([ "B.md".data ],
          Page.mk [ "B.md".data ] "B".data [] [] [] none) ].map Prod.snd ∨
    ([ "A.md".data ] ∈
        ({ path := [ "B.md".data ], title := "B".data, tags := [], links := [],
           backlinks := [ [ "A.md".data ] ], fm := none : Page}).backlinks ↔
      graphGet (rebuild_relations
          [ ([ "A.md".data ],
              Page.mk [ "A.md".data ] "A".data []
                [ Link.mk "B".data none none none ] [] none),
            ([ "B.md".data ],
              Page.mk [ "B.md".data ] "B".data [] [] [] none) ]).link_graph
        [ "A.md".data ] [ "B.md".data ] ≠ []) := by
  refine Or.inr (C4_backlinks_iff_graph_edge _ (by decide) _ _ _ ?_)
  decide

/-!
The parser front door of `parser.rs` and the event-driven indexer paths of
`indexer.rs`.

`parse_file` first checks the size ceiling and then reads and parses the
content.  YAML/frontmatter parsing is external to the core (the specification
treats it as a black box), so the content parsing step is a parameter: any
`ContentParser` that turns a path and its raw content either into a `Page` or
into a parse failure.
-/

/-- Failure modes of `parse_file` that the model distinguishes. -/
inductive ParseErr
  | ioNotFound
  | fileTooLarge (size : Nat)
  | contentErr
deriving DecidableEq, Repr

/-- The abstract content parser (frontmatter/tags/links extraction):
`none` models a parse failure such as malformed YAML. -/
abbrev ContentParser := FPath → Str → Option Page

/-- The `MAX_FILE_SIZE` constant of `config.rs` (1 MiB). -/
def MAX_FILE_SIZE : Nat := 1024 * 1024

/-- The `parse_file` function of `parser.rs`: missing file is an I/O error,
a file above the size ceiling fails fast with `FileTooLarge` before any
content is parsed, and otherwise the content parser decides. -/
def parse_file (pc : ContentParser) (fs : FS) (p : FPath) : Except ParseErr Page :=
  match fsRead fs p with
  | none => .error .ioNotFound
  | some c =>
    if c.length > MAX_FILE_SIZE then .error (.fileTooLarge c.length)
    else
      match pc p c with
      | some pg => .ok pg
      | none => .error .contentErr

/-- The tolerant stub page the indexer creates on a parse failure:
title = filename stem, empty tags, links and backlinks, null frontmatter. -/
def default_page (p : FPath) : Page :=
  { path := p, title := file_stem_string p, tags := [], links := [],
    backlinks := [], fm := none }

/-- Pass 1 of `scan_vault`: walk every markdown file of the tree and insert
its parsed page, or the tolerant stub when parsing fails. -/
def scanPages (pc : ContentParser) (fs : FS) : List (FPath × Page) :=
  fs.foldl (fun P kv =>
    if is_markdown_file kv.1 then
      match parse_file pc fs kv.1 with
      | .ok pg => aInsert kv.1 pg P
      | .error _ => aInsert kv.1 (default_page kv.1) P
    else P) []

/-- The `scan_vault` method: full walk, then `rebuild_relations`. -/
def scan_vault (pc : ContentParser) (fs : FS) : Indexer :=
  rebuild_relations (scanPages pc fs)

/-- The `FileEvent` vocabulary (`events.rs`; the folder variants appear in
the fuller build, and `indexer.rs` handles them). -/
inductive FileEvent
  | created (p : FPath)
  | modified (p : FPath)
  | deleted (p : FPath)
  | renamed (src dst : FPath)
  | folderCreated (p : FPath)
  | folderDeleted (p : FPath)
deriving DecidableEq, Repr

/-- The `update_file` method: drop any existing page for the path, then
insert the freshly parsed page — and nothing on a parse failure. -/
def update_file (pc : ContentParser) (fs : FS) (p : FPath)
    (P : List (FPath × Page)) : List (FPath × Page) :=
  let P1 := eraseKey p P
  match parse_file pc fs p with
  | .ok pg => aInsert p pg P1
  | .error _ => P1

/-- Whether the destination of a rename is currently a directory on disk:
some file lives strictly below it.  (The source asks the filesystem with
`to.is_dir()`; in the file-map model a directory exists exactly where files
live under it.) -/
def fsIsDir (fs : FS) (p : FPath) : Bool :=
  fs.any (fun kv => path_starts_with kv.1 p && !(decide (kv.1 = p)))

/-- One page relocation inside `handle_rename`: remove the page at its old
path, compute the destination (folder renames keep the relative path, file
renames move to the destination itself), re-parse there, stub on failure. -/
def renameStep (pc : ContentParser) (fs : FS) (isFolder : Bool) (src dst : FPath)
    (P : List (FPath × Page)) (old : FPath) : List (FPath × Page) :=
  let newP := if isFolder then dst ++ old.drop src.length else dst
  let P1 := eraseKey old P
  match parse_file pc fs newP with
  | .ok pg => aInsert newP pg P1
  | .error _ => aInsert newP (default_page newP) P1

/-- The `handle_rename` method: whether this is a folder rename is decided by
asking the filesystem about the destination; then every page whose path is
prefixed by the source is relocated and re-parsed at its new location. -/
def handle_rename (pc : ContentParser) (fs : FS) (src dst : FPath)
    (P : List (FPath × Page)) : List (FPath × Page) :=
  let isFolder := fsIsDir fs dst
  let toUpdate := (P.map Prod.fst).filter (fun k => path_starts_with k src)
  toUpdate.foldl (renameStep pc fs isFolder src dst) P

/-- The `handle_file_event` router. -/
def handle_file_event (pc : ContentParser) (fs : FS)
    (P : List (FPath × Page)) (e : FileEvent) : List (FPath × Page) :=
  match e with
  | .created p => update_file pc fs p P
  | .modified p => update_file pc fs p P
  | .deleted p => eraseKey p P
  | .folderCreated _ => P
  | .folderDeleted p => P.filter (fun kv => !(path_starts_with kv.1 p))
  | .renamed src dst => handle_rename pc fs src dst P

/-- The `handle_event_batch` method: apply every event's direct effect, then
`rebuild_relations` exactly once. -/
def handle_event_batch (pc : ContentParser) (fs : FS) (events : List FileEvent)
    (st : Indexer) : Indexer :=
  rebuild_relations (events.foldl (handle_file_event pc fs) st.pages)

/-- The `handle_event_and_rebuild` method: one event, immediate rebuild. -/
def handle_event_and_rebuild (pc : ContentParser) (fs : FS) (e : FileEvent)
    (st : Indexer) : Indexer :=
  rebuild_relations (handle_file_event pc fs st.pages e)

/-- Claim C5: `scan_vault` records a tolerant stub page for a file whose
parse fails, but `update_file` — the path taken for Created/Modified events —
does not: it removes the page and inserts nothing, so the file vanishes from
the index.  At a concrete one-file vault whose content parser rejects the
file, the scan shows the stub and the Created event then drops the entry,
contradicting the claim (and the tolerance `scan_vault` and `handle_rename`
both implement). -/
theorem C5_update_file_drops_unparseable :
    aLookup (scan_vault (fun _ _ => none) [ ([ "bad.md".data ], "x".data) ]).pages
        [ "bad.md".data ] = some (default_page [ "bad.md".data ]) ∧
    aLookup (handle_event_and_rebuild (fun _ _ => none) [ ([ "bad.md".data ], "x".data) ]
        (.created [ "bad.md".data ])
        (scan_vault (fun _ _ => none) [ ([ "bad.md".data ], "x".data) ])).pages
      [ "bad.md".data ] = none := by
  exact ⟨by decide, by decide⟩

/-- Claim C6, amended: a file above the 1 MiB ceiling fails fast with
`FileTooLarge` — before the content parser is ever consulted, for every
content parser — and a Created or Modified event on it leaves no entry in the
pages map; a full scan, however, gives it a tolerant stub entry (see the
counterexample theorem). -/
theorem C6_too_large_fails_fast (pc : ContentParser) (fs : FS) (p : FPath)
    (c : Str) (st : Indexer)
    (hc : fsRead fs p = some c) (hbig : c.length > MAX_FILE_SIZE) :
    parse_file pc fs p = .error (.fileTooLarge c.length) ∧
    aLookup (handle_event_and_rebuild pc fs (.created p) st).pages p = none ∧
    aLookup (handle_event_and_rebuild pc fs (.modified p) st).pages p = none := by
  have hp : parse_file pc fs p = .error (.fileTooLarge c.length) := by
    unfold parse_file
    rw [hc]
    simp only [hbig, if_true]
  have habsent : aLookup (update_file pc fs p st.pages) p = none := by
    unfold update_file
    rw [hp]
    exact aLookup_eraseKey_self p st.pages
  have hupd : ∀ e, handle_file_event pc fs st.pages e = update_file pc fs p st.pages →
      aLookup (handle_event_and_rebuild pc fs e st).pages p = none := by
    intro e he
    unfold handle_event_and_rebuild
    rw [rebuild_pages_lookup, he, habsent]
    rfl
  exact ⟨hp, hupd (.created p) rfl, hupd (.modified p) rfl⟩

/-- Witness for C6 (amended): a concrete vault with one file of
2^20 + 1 bytes; a Created event on it leaves no page entry. -/
theorem C6_too_large_fails_fast_witness :
    aLookup (handle_event_and_rebuild (fun _ _ => none)
        [ ([ "big.md".data ], List.replicate (1024 * 1024 + 1) 'a') ]
        (.created [ "big.md".data ]) (Indexer.mk [] [] [] [])).pages
      [ "big.md".data ] = none :=
  (C6_too_large_fails_fast (fun _ _ => none)
    [ ([ "big.md".data ], List.replicate (1024 * 1024 + 1) 'a') ]
    [ "big.md".data ] (List.replicate (1024 * 1024 + 1) 'a') (Indexer.mk [] [] [] [])
    rfl (by rw [List.length_replicate]; decide)).2.1

/-- Claim C6, counterexample to the claim as stated: after a full scan of a
vault holding a file of 2^20 + 1 bytes, the pages map does contain an entry
for that path — the tolerant stub (`scan_vault` stubs every parse failure,
`FileTooLarge` included) — where the claim says no entry appears.  The stub's
title is the filename stem, not the content parser's title, showing the size
check (not content parsing) produced it. -/
theorem C6_scan_indexes_too_large_file :
    aLookup (scan_vault (fun p _ => some ⟨p, "T".data, [], [], [], none⟩)
        [ ([ "big.md".data ], List.replicate (1024 * 1024 + 1) 'a') ]).pages
      [ "big.md".data ] = some (default_page [ "big.md".data ]) := by
  have hp : parse_file (fun p _ => some ⟨p, "T".data, [], [], [], none⟩)
      [ ([ "big.md".data ], List.replicate (1024 * 1024 + 1) 'a') ] [ "big.md".data ]
      = .error (.fileTooLarge (1024 * 1024 + 1)) := by
    unfold parse_file
    have h1 : fsRead [ ([ "big.md".data ], List.replicate (1024 * 1024 + 1) 'a') ]
        [ "big.md".data ] = some (List.replicate (1024 * 1024 + 1) 'a') := rfl
    rw [h1]
    simp only [List.length_replicate]
    rw [if_pos (by decide : 1024 * 1024 + 1 > MAX_FILE_SIZE)]
  have h2 : scanPages (fun p _ => some ⟨p, "T".data, [], [], [], none⟩)
      [ ([ "big.md".data ], List.replicate (1024 * 1024 + 1) 'a') ]
      = [ ([ "big.md".data ], default_page [ "big.md".data ]) ] := by
    unfold scanPages
    rw [List.foldl_cons, List.foldl_nil]
    rw [if_pos (show is_markdown_file [ "big.md".data ] = true from by decide)]
    rw [hp]
    rfl
  show aLookup (rebuild_relations _).pages _ = _
  rw [h2]
  decide

/-!
Machinery for the replay claim: `rebuild_relations` reads every page field
except `backlinks`, and overwrites `backlinks`; so two pages lists that agree
up to backlinks rebuild to identical states.
-/

/-- A page with its derived backlink set blanked: the part of a page that
`rebuild_relations` reads. -/
def pageCore (pg : Page) : Page := { pg with backlinks := [] }

/-- A pages list with every backlink set blanked. -/
def stripP (P : List (FPath × Page)) : List (FPath × Page) :=
  P.map (fun kv => (kv.1, pageCore kv.2))

theorem pageCore_tags (pg : Page) : (pageCore pg).tags = pg.tags := rfl

theorem pageCore_links (pg : Page) : (pageCore pg).links = pg.links := rfl

theorem pageCore_set_backlinks {a b : Page} (h : pageCore a = pageCore b) (c : List FPath) :
    { a with backlinks := c } = { b with backlinks := c } := by
  cases a
  cases b
  simp only [pageCore, Page.mk.injEq] at h
  simp only [Page.mk.injEq]
  tauto

theorem stripP_keys (P : List (FPath × Page)) :
    (stripP P).map Prod.fst = P.map Prod.fst := by
  simp [stripP, List.map_map]

/-- The pointwise content of an equality of stripped pages lists. -/
theorem stripP_eq_destruct {kv : FPath × Page} {P Q : List (FPath × Page)}
    (h : stripP (kv :: P) = stripP Q) :
    ∃ w Q1, Q = w :: Q1 ∧ w.1 = kv.1 ∧ pageCore w.2 = pageCore kv.2 ∧
      stripP P = stripP Q1 := by
  cases Q with
  | nil => exact absurd h (by simp [stripP])
  | cons w Q1 =>
    simp only [stripP, List.map_cons, List.cons.injEq, Prod.mk.injEq] at h
    exact ⟨w, Q1, rfl, h.1.1.symm, h.1.2.symm, by simpa [stripP] using h.2⟩

theorem resolver_fold_congr (P Q : List (FPath × Page))
    (h : P.map Prod.fst = Q.map Prod.fst) :
    ∀ r0, P.foldl resStep r0 = Q.foldl resStep r0 := by
  induction P generalizing Q with
  | nil =>
    intro r0
    rw [List.map_nil] at h
    rw [List.map_eq_nil_iff.mp h.symm]
  | cons kv P1 ih =>
    intro r0
    cases Q with
    | nil => exact absurd h (by simp)
    | cons w Q1 =>
      simp only [List.map_cons, List.cons.injEq] at h
      rw [List.foldl_cons, List.foldl_cons]
      have : resStep r0 kv = resStep r0 w := by
        unfold resStep
        rw [h.1]
      rw [this]
      exact ih Q1 h.2 _

theorem tags_fold_congr (P Q : List (FPath × Page)) (h : stripP P = stripP Q) :
    ∀ tm0, P.foldl (fun tm kv => addTags kv.1 kv.2.tags tm) tm0
      = Q.foldl (fun tm kv => addTags kv.1 kv.2.tags tm) tm0 := by
  induction P generalizing Q with
  | nil =>
    intro tm0
    have : Q = [] := by
      cases Q with
      | nil => rfl
      | cons w Q1 => exact absurd h (by simp [stripP])
    rw [this]
  | cons kv P1 ih =>
    intro tm0
    rcases stripP_eq_destruct h with ⟨w, Q1, rfl, hk, hc, hrest⟩
    rw [List.foldl_cons, List.foldl_cons]
    have htags : kv.2.tags = w.2.tags := by
      rw [← pageCore_tags kv.2, ← pageCore_tags w.2, hc]
    rw [hk, htags]
    exact ih Q1 hrest _

theorem links_fold_congr (r : List (Str × FPath)) (P Q : List (FPath × Page))
    (h : stripP P = stripP Q) :
    ∀ gb0, P.foldl (fun gb kv => addLinks r kv.1 kv.2.links gb) gb0
      = Q.foldl (fun gb kv => addLinks r kv.1 kv.2.links gb) gb0 := by
  induction P generalizing Q with
  | nil =>
    intro gb0
    have : Q = [] := by
      cases Q with
      | nil => rfl
      | cons w Q1 => exact absurd h (by simp [stripP])
    rw [this]
  | cons kv P1 ih =>
    intro gb0
    rcases stripP_eq_destruct h with ⟨w, Q1, rfl, hk, hc, hrest⟩
    rw [List.foldl_cons, List.foldl_cons]
    have hlinks : kv.2.links = w.2.links := by
      rw [← pageCore_links kv.2, ← pageCore_links w.2, hc]
    rw [hk, hlinks]
    exact ih Q1 hrest _

theorem map_set_backlinks_congr (bl : List (FPath × List FPath))
    (P Q : List (FPath × Page)) (h : stripP P = stripP Q) :
    P.map (fun kv => (kv.1, { kv.2 with backlinks := blGet bl kv.1 }))
      = Q.map (fun kv => (kv.1, { kv.2 with backlinks := blGet bl kv.1 })) := by
  induction P generalizing Q with
  | nil =>
    cases Q with
    | nil => rfl
    | cons w Q1 => exact absurd h (by simp [stripP])
  | cons kv P1 ih =>
    rcases stripP_eq_destruct h with ⟨w, Q1, rfl, hk, hc, hrest⟩
    simp only [List.map_cons, List.cons.injEq, Prod.mk.injEq]
    refine ⟨⟨hk.symm, ?_⟩, ih Q1 hrest⟩
    rw [← hk]
    exact pageCore_set_backlinks hc.symm _

theorem rebuild_congr (P Q : List (FPath × Page)) (h : stripP P = stripP Q) :
    rebuild_relations P = rebuild_relations Q := by
  have hkeys : P.map Prod.fst = Q.map Prod.fst := by
    rw [← stripP_keys P, ← stripP_keys Q, h]
  have hres : rebuild_link_resolver P = rebuild_link_resolver Q := by
    rw [rebuild_link_resolver_eq, rebuild_link_resolver_eq]
    exact resolver_fold_congr P Q hkeys []
  rw [rebuild_relations_eq, rebuild_relations_eq]
  have hgb : rebuildGB P = rebuildGB Q := by
    unfold rebuildGB
    rw [hres]
    exact links_fold_congr _ P Q h _
  rw [hgb, tags_fold_congr P Q h [], hres]
  rw [map_set_backlinks_congr (rebuildGB Q).2 P Q h]

/-- Stripping undoes the backlink refresh of a rebuild. -/
theorem stripP_rebuild_pages (P : List (FPath × Page)) :
    stripP (rebuild_relations P).pages = stripP P := by
  rw [rebuild_relations_eq]
  unfold stripP
  rw [List.map_map]
  apply List.map_congr_left
  intro kv _
  simp only [Function.comp]
  rfl

theorem rebuild_pages_keys (P : List (FPath × Page)) :
    (rebuild_relations P).pages.map Prod.fst = P.map Prod.fst := by
  rw [rebuild_relations_eq]
  simp [List.map_map]

theorem stripP_eraseKey (p : FPath) (X : List (FPath × Page)) :
    stripP (eraseKey p X) = eraseKey p (stripP X) := by
  unfold stripP eraseKey
  rw [List.filter_map]
  rfl

theorem stripP_aInsert (p : FPath) (pg : Page) (X : List (FPath × Page)) :
    stripP (aInsert p pg X) = aInsert p (pageCore pg) (stripP X) := by
  unfold aInsert
  show (p, pageCore pg) :: stripP (eraseKey p X) = _
  rw [stripP_eraseKey]

theorem stripP_filterKeys (pred : FPath → Bool) (X : List (FPath × Page)) :
    stripP (X.filter (fun kv => pred kv.1)) = (stripP X).filter (fun kv => pred kv.1) := by
  unfold stripP
  rw [List.filter_map]
  rfl

theorem eraseKey_idem {κ β : Type} [DecidableEq κ] (p : κ) (X : List (κ × β)) :
    eraseKey p (eraseKey p X) = eraseKey p X := by
  unfold eraseKey
  rw [List.filter_filter]
  simp

theorem eraseKey_aInsert_same {κ β : Type} [DecidableEq κ] (p : κ) (v : β)
    (X : List (κ × β)) : eraseKey p (aInsert p v X) = eraseKey p X := by
  unfold aInsert
  rw [eraseKey_cons]
  simp [eraseKey_idem]

/-- The effect of `update_file` on the stripped pages list. -/
def updCore (pc : ContentParser) (fs : FS) (p : FPath)
    (Y : List (FPath × Page)) : List (FPath × Page) :=
  match parse_file pc fs p with
  | .ok pg => aInsert p (pageCore pg) (eraseKey p Y)
  | .error _ => eraseKey p Y

theorem stripP_update_file (pc : ContentParser) (fs : FS) (p : FPath)
    (X : List (FPath × Page)) :
    stripP (update_file pc fs p X) = updCore pc fs p (stripP X) := by
  unfold update_file updCore
  cases parse_file pc fs p with
  | ok pg =>
    simp only
    rw [stripP_aInsert, stripP_eraseKey]
  | error e =>
    simp only
    rw [stripP_eraseKey]

theorem updCore_idem (pc : ContentParser) (fs : FS) (p : FPath)
    (Y : List (FPath × Page)) :
    updCore pc fs p (updCore pc fs p Y) = updCore pc fs p Y := by
  unfold updCore
  cases parse_file pc fs p with
  | ok pg =>
    simp only
    rw [eraseKey_aInsert_same, eraseKey_idem]
  | error e =>
    simp only
    rw [eraseKey_idem]

theorem mem_keys_eraseKey {κ β : Type} [DecidableEq κ] (p : κ) (X : List (κ × β))
    (k : κ) : k ∈ (eraseKey p X).map Prod.fst ↔ k ∈ X.map Prod.fst ∧ k ≠ p := by
  unfold eraseKey
  simp only [List.mem_map, List.mem_filter, Bool.not_eq_eq_eq_not, Bool.not_true,
    decide_eq_false_iff_not]
  constructor
  · rintro ⟨kv, ⟨hmem, hne⟩, rfl⟩
    exact ⟨⟨kv, hmem, rfl⟩, hne⟩
  · rintro ⟨⟨kv, hmem, rfl⟩, hne⟩
    exact ⟨kv, ⟨hmem, hne⟩, rfl⟩

theorem mem_keys_aInsert {κ β : Type} [DecidableEq κ] (p : κ) (v : β)
    (X : List (κ × β)) (k : κ) :
    k ∈ (aInsert p v X).map Prod.fst ↔ k = p ∨ (k ∈ X.map Prod.fst ∧ k ≠ p) := by
  unfold aInsert
  simp only [List.map_cons, List.mem_cons, mem_keys_eraseKey]

theorem renameFold_keys (pc : ContentParser) (fs : FS) (isFolder : Bool)
    (src dst : FPath) :
    ∀ (l : List FPath) (X : List (FPath × Page)) (k : FPath),
      k ∈ (l.foldl (renameStep pc fs isFolder src dst) X).map Prod.fst →
      (k ∈ X.map Prod.fst ∧ k ∉ l) ∨
        ∃ old ∈ l,
          k = (if isFolder then dst ++ List.drop src.length old else dst) := by
  intro l
  induction l with
  | nil =>
    intro X k hk
    exact Or.inl ⟨hk, List.not_mem_nil k⟩
  | cons old l1 ih =>
    intro X k hk
    rw [List.foldl_cons] at hk
    rcases ih _ k hk with ⟨h1, h2⟩ | ⟨w, hw, h1⟩
    · simp only [renameStep] at h1
      rcases hp : parse_file pc fs (if isFolder then dst ++ List.drop src.length old else dst)
        with e | pg
      all_goals rw [hp] at h1
      all_goals simp only [mem_keys_aInsert, mem_keys_eraseKey] at h1
      all_goals rcases h1 with h1 | h1
      · exact Or.inr ⟨old, List.mem_cons_self old l1, h1⟩
      · refine Or.inl ⟨h1.1.1, ?_⟩
        intro hmem
        rcases List.mem_cons.mp hmem with rfl | hmem1
        · exact h1.1.2 rfl
        · exact h2 hmem1
      · exact Or.inr ⟨old, List.mem_cons_self old l1, h1⟩
      · refine Or.inl ⟨h1.1.1, ?_⟩
        intro hmem
        rcases List.mem_cons.mp hmem with rfl | hmem1
        · exact h1.1.2 rfl
        · exact h2 hmem1
    · exact Or.inr ⟨w, List.mem_cons_of_mem old hw, h1⟩

theorem handle_rename_no_src_keys (pc : ContentParser) (fs : FS) (src dst : FPath)
    (P : List (FPath × Page)) (h1 : ¬ src <+: dst) (h2 : ¬ dst <+: src) :
    ∀ k ∈ (handle_rename pc fs src dst P).map Prod.fst, ¬ src <+: k := by
  intro k hk hpre
  simp only [handle_rename] at hk
  rcases renameFold_keys pc fs (fsIsDir fs dst) src dst _ _ k hk with ⟨hc1, hc2⟩ | hc
  · refine hc2 ?_
    rw [List.mem_filter]
    refine ⟨hc1, ?_⟩
    rw [path_starts_with_iff]
    exact hpre
  · rcases hc with ⟨old, _, rfl⟩
    cases isf : fsIsDir fs dst
    · rw [isf] at hpre
      simp only [Bool.false_eq_true, if_false] at hpre
      exact h1 hpre
    · rw [isf] at hpre
      simp only [if_true] at hpre
      rcases List.prefix_or_prefix_of_prefix hpre (List.prefix_append dst _) with hh | hh
      · exact h1 hh
      · exact h2 hh

theorem handle_rename_noop (pc : ContentParser) (fs : FS) (src dst : FPath)
    (X : List (FPath × Page)) (hkeys : ∀ k ∈ X.map Prod.fst, ¬ src <+: k) :
    handle_rename pc fs src dst X = X := by
  unfold handle_rename
  have : (X.map Prod.fst).filter (fun k => path_starts_with k src) = [] := by
    rw [List.filter_eq_nil_iff]
    intro k hk
    rw [path_starts_with_iff]
    exact fun h => hkeys k hk (by simpa using h)
  rw [this, List.foldl_nil]

/-- The condition under which a rename event can be replayed: neither path is
an ancestor of (or equal to) the other — always the case for a rename the
filesystem actually performed. -/
def eventReplayOk : FileEvent → Prop
  | .renamed src dst => ¬ src <+: dst ∧ ¬ dst <+: src
  | _ => True

/-- Claim C8: after a user-initiated mutation has been applied through the
immediate single-event path, replaying the same event through the batched
path is a no-op: the whole index state (pages, tags, link graph, resolver,
and every backlink set) is unchanged.  For a rename event this needs the
(filesystem-guaranteed) fact that neither path is an ancestor of the other. -/
theorem C8_replay_noop (pc : ContentParser) (fs : FS) (e : FileEvent)
    (st0 : Indexer) (hok : eventReplayOk e) :
    handle_event_batch pc fs [e] (handle_event_and_rebuild pc fs e st0)
      = handle_event_and_rebuild pc fs e st0 := by
  unfold handle_event_batch handle_event_and_rebuild
  rw [List.foldl_cons, List.foldl_nil]
  apply rebuild_congr
  cases e with
  | created p =>
    show stripP (update_file pc fs p
        (rebuild_relations (update_file pc fs p st0.pages)).pages)
      = stripP (update_file pc fs p st0.pages)
    rw [stripP_update_file, stripP_rebuild_pages, stripP_update_file, updCore_idem]
  | modified p =>
    show stripP (update_file pc fs p
        (rebuild_relations (update_file pc fs p st0.pages)).pages)
      = stripP (update_file pc fs p st0.pages)
    rw [stripP_update_file, stripP_rebuild_pages, stripP_update_file, updCore_idem]
  | deleted p =>
    show stripP (eraseKey p (rebuild_relations (eraseKey p st0.pages)).pages)
      = stripP (eraseKey p st0.pages)
    rw [stripP_eraseKey, stripP_rebuild_pages, stripP_eraseKey]
    exact eraseKey_idem p (stripP st0.pages)
  | folderCreated p =>
    exact stripP_rebuild_pages _
  | folderDeleted p =>
    show stripP ((rebuild_relations
          (st0.pages.filter (fun kv => !(path_starts_with kv.1 p)))).pages.filter
        (fun kv => !(path_starts_with kv.1 p)))
      = stripP (st0.pages.filter (fun kv => !(path_starts_with kv.1 p)))
    rw [stripP_filterKeys (fun k => !(path_starts_with k p)), stripP_rebuild_pages,
      stripP_filterKeys (fun k => !(path_starts_with k p)), List.filter_filter]
    simp
  | renamed src dst =>
    show stripP (handle_rename pc fs src dst
        (rebuild_relations (handle_rename pc fs src dst st0.pages)).pages)
      = stripP (handle_rename pc fs src dst st0.pages)
    rw [handle_rename_noop pc fs src dst _ ?_]
    · exact stripP_rebuild_pages _
    · intro k hk
      rw [rebuild_pages_keys] at hk
      exact handle_rename_no_src_keys pc fs src dst st0.pages hok.1 hok.2 k hk

/-- Witness for C8: replaying a concrete rename event over the state the
immediate path produced leaves the index equal. -/
theorem C8_replay_noop_witness :
    handle_event_batch (fun p _ => some (default_page p))
        [ ([ "b.md".data ], "hi".data) ]
        [ .renamed [ "a.md".data ] [ "b.md".data ] ]
        (handle_event_and_rebuild (fun p _ => some (default_page p))
          [ ([ "b.md".data ], "hi".data) ]
          (.renamed [ "a.md".data ] [ "b.md".data ])
          (scan_vault (fun p _ => some (default_page p))
            [ ([ "b.md".data ], "hi".data) ]))
      = handle_event_and_rebuild (fun p _ => some (default_page p))
          [ ([ "b.md".data ], "hi".data) ]
          (.renamed [ "a.md".data ] [ "b.md".data ])
          (scan_vault (fun p _ => some (default_page p))
            [ ([ "b.md".data ], "hi".data) ]) :=
  C8_replay_noop (fun p _ => some (default_page p))
    [ ([ "b.md".data ], "hi".data) ]
    (.renamed [ "a.md".data ] [ "b.md".data ])
    (scan_vault (fun p _ => some (default_page p)) [ ([ "b.md".data ], "hi".data) ])
    ⟨by decide, by decide⟩

/-!
The batched-path/rescan equivalence.  A filesystem change script pairs each
Created/Modified/Deleted event with the mutation it reports, so "the directory
tree as it stands after all those filesystem changes" is the fold of the
script over the initial tree, and the watcher-delivered events are exactly
the script's events.
-/

/-- One observed filesystem change: a file write (creation when `isCreate`,
else a modification) or a file deletion. -/
inductive FsChange
  | fwrite (p : FPath) (c : Str) (isCreate : Bool)
  | fdelete (p : FPath)
deriving DecidableEq, Repr

/-- The path a change concerns. -/
def changePath : FsChange → FPath
  | .fwrite p _ _ => p
  | .fdelete p => p

/-- The change's effect on the tree. -/
def applyChange (fs : FS) : FsChange → FS
  | .fwrite p c _ => aInsert p c fs
  | .fdelete p => eraseKey p fs

/-- The event the watcher publishes for the change. -/
def changeEvent : FsChange → FileEvent
  | .fwrite p _ true => .created p
  | .fwrite p _ false => .modified p
  | .fdelete p => .deleted p

/-- The tree after the whole script. -/
def finalFS (fsI : FS) (script : List FsChange) : FS :=
  script.foldl applyChange fsI

/-- The last change of the script that concerns a path. -/
def lastChange (p : FPath) : List FsChange → Option FsChange
  | [] => none
  | ch :: rest =>
    match lastChange p rest with
    | some x => some x
    | none => if changePath ch = p then some ch else none

theorem lastChange_cons (p : FPath) (ch : FsChange) (rest : List FsChange) :
    lastChange p (ch :: rest) =
      match lastChange p rest with
      | some x => some x
      | none => if changePath ch = p then some ch else none := rfl

theorem lastChange_mem (p : FPath) :
    ∀ (script : List FsChange) (ch : FsChange), lastChange p script = some ch →
      ch ∈ script ∧ changePath ch = p := by
  intro script
  induction script with
  | nil => intro ch h; exact absurd h (by simp [lastChange])
  | cons c0 rest ih =>
    intro ch h
    rcases hr : lastChange p rest with _ | x
    · rw [lastChange_cons, hr] at h
      simp only at h
      by_cases hc : changePath c0 = p
      · rw [if_pos hc] at h
        simp only [Option.some.injEq] at h
        subst h
        exact ⟨List.mem_cons_self c0 rest, hc⟩
      · rw [if_neg hc] at h
        exact absurd h (by simp)
    · rw [lastChange_cons, hr] at h
      simp only [Option.some.injEq] at h
      subst h
      rcases ih x hr with ⟨h1, h2⟩
      exact ⟨List.mem_cons_of_mem c0 h1, h2⟩

theorem finalFS_lookup (p : FPath) :
    ∀ (script : List FsChange) (fsI : FS),
      aLookup (finalFS fsI script) p =
        match lastChange p script with
        | none => aLookup fsI p
        | some (.fwrite _ c _) => some c
        | some (.fdelete _) => none := by
  intro script
  induction script with
  | nil => intro fsI; rfl
  | cons ch rest ih =>
    intro fsI
    show aLookup (finalFS (applyChange fsI ch) rest) p = _
    rw [ih, lastChange_cons]
    rcases hr : lastChange p rest with _ | x
    · simp only
      by_cases hc : changePath ch = p
      · rw [if_pos hc]
        cases ch with
        | fwrite q c b =>
          simp only [changePath] at hc
          subst hc
          simp [applyChange, aLookup_aInsert_self]
        | fdelete q =>
          simp only [changePath] at hc
          subst hc
          simp [applyChange, aLookup_eraseKey_self]
      · rw [if_neg hc]
        cases ch with
        | fwrite q c b =>
          simp only [changePath] at hc
          exact aLookup_aInsert_ne q c fsI p hc
        | fdelete q =>
          simp only [changePath] at hc
          exact aLookup_eraseKey_ne q p fsI hc
    · cases x <;> rfl

theorem update_file_lookup_self (pc : ContentParser) (fs : FS) (p : FPath)
    (P : List (FPath × Page)) :
    aLookup (update_file pc fs p P) p =
      match parse_file pc fs p with
      | .ok pg => some pg
      | .error _ => none := by
  unfold update_file
  cases parse_file pc fs p with
  | ok pg => exact aLookup_aInsert_self p pg _
  | error e => exact aLookup_eraseKey_self p P

theorem update_file_lookup_ne (pc : ContentParser) (fs : FS) (p q : FPath)
    (P : List (FPath × Page)) (h : p ≠ q) :
    aLookup (update_file pc fs p P) q = aLookup P q := by
  unfold update_file
  cases parse_file pc fs p with
  | ok pg =>
    show aLookup (aInsert p pg (eraseKey p P)) q = _
    rw [aLookup_aInsert_ne _ _ _ _ h, aLookup_eraseKey_ne _ _ _ h]
  | error e =>
    exact aLookup_eraseKey_ne _ _ _ h

theorem batch_lookup (pc : ContentParser) (fsF : FS) (p : FPath) :
    ∀ (script : List FsChange) (P0 : List (FPath × Page)),
      aLookup ((script.map changeEvent).foldl (handle_file_event pc fsF) P0) p =
        match lastChange p script with
        | none => aLookup P0 p
        | some (.fwrite ..) =>
          match parse_file pc fsF p with
          | .ok pg => some pg
          | .error _ => none
        | some (.fdelete _) => none := by
  intro script
  induction script with
  | nil => intro P0; rfl
  | cons ch rest ih =>
    intro P0
    rw [List.map_cons, List.foldl_cons, ih, lastChange_cons]
    rcases hr : lastChange p rest with _ | x
    · simp only
      by_cases hc : changePath ch = p
      · rw [if_pos hc]
        cases ch with
        | fwrite q c b =>
          simp only [changePath] at hc
          subst hc
          cases b
          · exact update_file_lookup_self pc fsF q P0
          · exact update_file_lookup_self pc fsF q P0
        | fdelete q =>
          simp only [changePath] at hc
          subst hc
          exact aLookup_eraseKey_self q P0
      · rw [if_neg hc]
        cases ch with
        | fwrite q c b =>
          simp only [changePath] at hc
          cases b
          · exact update_file_lookup_ne pc fsF q p P0 hc
          · exact update_file_lookup_ne pc fsF q p P0 hc
        | fdelete q =>
          simp only [changePath] at hc
          exact aLookup_eraseKey_ne q p P0 hc
    · cases x <;> rfl

/-- The page the scan records for a path: the parse result, or the tolerant
stub on any parse failure. -/
def parseOrStub (pc : ContentParser) (fs : FS) (p : FPath) : Page :=
  match parse_file pc fs p with
  | .ok pg => pg
  | .error _ => default_page p

theorem scan_step_eq (pc : ContentParser) (fs : FS) (P0 : List (FPath × Page))
    (kv : FPath × Str) :
    (if is_markdown_file kv.1 then
        match parse_file pc fs kv.1 with
        | .ok pg => aInsert kv.1 pg P0
        | .error _ => aInsert kv.1 (default_page kv.1) P0
      else P0)
      = if is_markdown_file kv.1 then aInsert kv.1 (parseOrStub pc fs kv.1) P0 else P0 := by
  by_cases h : is_markdown_file kv.1
  · rw [if_pos h, if_pos h]
    unfold parseOrStub
    cases parse_file pc fs kv.1 <;> rfl
  · rw [if_neg h, if_neg h]

theorem scan_fold_lookup (pc : ContentParser) (fs : FS) (p : FPath) :
    ∀ (l : List (FPath × Str)) (P0 : List (FPath × Page)),
      aLookup (l.foldl (fun P kv =>
          if is_markdown_file kv.1 then
            match parse_file pc fs kv.1 with
            | .ok pg => aInsert kv.1 pg P
            | .error _ => aInsert kv.1 (default_page kv.1) P
          else P) P0) p =
        if is_markdown_file p ∧ p ∈ l.map Prod.fst
        then some (parseOrStub pc fs p) else aLookup P0 p := by
  intro l
  induction l with
  | nil =>
    intro P0
    simp
  | cons kv rest ih =>
    intro P0
    rw [List.foldl_cons, ih]
    rw [scan_step_eq]
    by_cases hrest : is_markdown_file p = true ∧ p ∈ rest.map Prod.fst
    · rw [if_pos hrest, if_pos ⟨hrest.1, List.mem_cons_of_mem _ hrest.2⟩]
    · rw [if_neg hrest]
      by_cases hk : kv.1 = p
      · subst hk
        by_cases hmd : is_markdown_file kv.1
        · rw [if_pos hmd, if_pos ⟨hmd, List.mem_cons_self _ _⟩]
          exact aLookup_aInsert_self _ _ _
        · rw [if_neg hmd, if_neg ?_]
          intro hcontra
          exact hmd hcontra.1
      · have hcond : ¬ (is_markdown_file p = true ∧ p ∈ (kv :: rest).map Prod.fst) := by
          intro hcontra
          have hm := hcontra.2
          rw [List.map_cons] at hm
          rcases List.mem_cons.mp hm with h1 | h1
          · exact hk h1.symm
          · exact hrest ⟨hcontra.1, h1⟩
        rw [if_neg hcond]
        by_cases hmd : is_markdown_file kv.1
        · rw [if_pos hmd]
          exact aLookup_aInsert_ne _ _ _ _ hk
        · rw [if_neg hmd]

theorem scanPages_lookup (pc : ContentParser) (fs : FS) (p : FPath) :
    aLookup (scanPages pc fs) p =
      if is_markdown_file p ∧ p ∈ fs.map Prod.fst
      then some (parseOrStub pc fs p) else none := by
  unfold scanPages
  rw [scan_fold_lookup pc fs p fs []]
  by_cases h : is_markdown_file p = true ∧ p ∈ fs.map Prod.fst
  · rw [if_pos h, if_pos h]
  · rw [if_neg h, if_neg h]
    rfl

theorem aLookup_isSome_iff {κ β : Type} [DecidableEq κ] (m : List (κ × β)) (k : κ) :
    (aLookup m k).isSome = true ↔ k ∈ m.map Prod.fst := by
  rcases h : aLookup m k with _ | v
  · rw [aLookup_eq_none_iff] at h
    simp [h]
  · have : (k, v) ∈ m := aLookup_mem m k v h
    simp only [Option.isSome_some, true_iff]
    exact List.mem_map_of_mem Prod.fst this

theorem parse_file_congr (pc : ContentParser) (fs1 fs2 : FS) (p : FPath)
    (h : aLookup fs1 p = aLookup fs2 p) : parse_file pc fs1 p = parse_file pc fs2 p := by
  unfold parse_file fsRead
  rw [h]

theorem nodup_keys_eraseKey {κ β : Type} [DecidableEq κ] (p : κ) (X : List (κ × β))
    (h : (X.map Prod.fst).Nodup) : ((eraseKey p X).map Prod.fst).Nodup := by
  induction X with
  | nil => simp [eraseKey]
  | cons kv rest ih =>
    simp only [List.map_cons, List.nodup_cons] at h
    rw [eraseKey_cons]
    by_cases hk : kv.1 = p
    · rw [if_pos hk]
      exact ih h.2
    · rw [if_neg hk]
      simp only [List.map_cons, List.nodup_cons]
      refine ⟨?_, ih h.2⟩
      intro hmem
      exact h.1 ((mem_keys_eraseKey p rest kv.1).mp hmem).1

theorem nodup_keys_aInsert {κ β : Type} [DecidableEq κ] (p : κ) (v : β)
    (X : List (κ × β)) (h : (X.map Prod.fst).Nodup) :
    ((aInsert p v X).map Prod.fst).Nodup := by
  unfold aInsert
  simp only [List.map_cons, List.nodup_cons]
  refine ⟨?_, nodup_keys_eraseKey p X h⟩
  intro hmem
  exact ((mem_keys_eraseKey p X p).mp hmem).2 rfl

theorem scanPages_keys_nodup (pc : ContentParser) (fs : FS) :
    ((scanPages pc fs).map Prod.fst).Nodup := by
  unfold scanPages
  have hgen : ∀ (l : List (FPath × Str)) (P0 : List (FPath × Page)),
      (P0.map Prod.fst).Nodup →
      ((l.foldl (fun P kv =>
          if is_markdown_file kv.1 then
            match parse_file pc fs kv.1 with
            | .ok pg => aInsert kv.1 pg P
            | .error _ => aInsert kv.1 (default_page kv.1) P
          else P) P0).map Prod.fst).Nodup := by
    intro l
    induction l with
    | nil => intro P0 h; exact h
    | cons kv rest ih =>
      intro P0 h
      rw [List.foldl_cons]
      refine ih _ ?_
      rw [scan_step_eq]
      by_cases hmd : is_markdown_file kv.1
      · rw [if_pos hmd]
        exact nodup_keys_aInsert _ _ _ h
      · rw [if_neg hmd]
        exact h
  exact hgen fs [] (by simp)

theorem update_file_keys_nodup (pc : ContentParser) (fs : FS) (p : FPath)
    (P : List (FPath × Page)) (h : (P.map Prod.fst).Nodup) :
    ((update_file pc fs p P).map Prod.fst).Nodup := by
  unfold update_file
  cases parse_file pc fs p with
  | ok pg => exact nodup_keys_aInsert p pg _ (nodup_keys_eraseKey p P h)
  | error e => exact nodup_keys_eraseKey p P h

theorem batch_keys_nodup (pc : ContentParser) (fsF : FS) :
    ∀ (script : List FsChange) (P0 : List (FPath × Page)),
      (P0.map Prod.fst).Nodup →
      (((script.map changeEvent).foldl (handle_file_event pc fsF) P0).map Prod.fst).Nodup := by
  intro script
  induction script with
  | nil => intro P0 h; exact h
  | cons ch rest ih =>
    intro P0 h
    rw [List.map_cons, List.foldl_cons]
    refine ih _ ?_
    cases ch with
    | fwrite q c b =>
      cases b
      · exact update_file_keys_nodup pc fsF q P0 h
      · exact update_file_keys_nodup pc fsF q P0 h
    | fdelete q => exact nodup_keys_eraseKey q P0 h

/-- Page lookup up to the derived backlink set — how two `HashMap`s of pages
are compared when backlink order is immaterial. -/
def coreLookup (st : Indexer) (p : FPath) : Option Page :=
  (aLookup st.pages p).map pageCore

/-- Membership of `q` in page `T`'s backlink set. -/
def backlinkMem (st : Indexer) (T q : FPath) : Prop :=
  ∃ pg, aLookup st.pages T = some pg ∧ q ∈ pg.backlinks

/-- Semantic equality of two index states: pages agree up to backlink-set
representation, backlink sets agree as sets, tag sets agree as sets, and the
link graph agrees exactly. -/
def stateEquiv (A B : Indexer) : Prop :=
  (∀ p, coreLookup A p = coreLookup B p) ∧
  (∀ T q, backlinkMem A T q ↔ backlinkMem B T q) ∧
  (∀ t p, p ∈ tagGet A.tags t ↔ p ∈ tagGet B.tags t) ∧
  (∀ s t, graphGet A.link_graph s t = graphGet B.link_graph s t)

theorem coreLookup_rebuild (P : List (FPath × Page)) (p : FPath) :
    coreLookup (rebuild_relations P) p = (aLookup P p).map pageCore := by
  unfold coreLookup
  rw [rebuild_pages_lookup, Option.map_map]
  rcases aLookup P p with _ | pg <;> rfl

theorem backlinkMem_rebuild (P : List (FPath × Page)) (T q : FPath) :
    backlinkMem (rebuild_relations P) T q ↔
      (aLookup P T).isSome = true ∧
        ∃ kv ∈ P, kv.1 = q ∧ ∃ l ∈ kv.2.links,
          resolveWith (rebuild_link_resolver P) l = some T := by
  unfold backlinkMem
  rcases hT : aLookup P T with _ | pg0
  · constructor
    · rintro ⟨pg, hpg, _⟩
      rw [rebuild_pages_lookup, hT] at hpg
      exact absurd hpg (by simp)
    · rintro ⟨hs, _⟩
      exact absurd hs (by simp)
  · have hT2 : aLookup (rebuild_relations P).pages T
        = some { pg0 with backlinks := blGet (rebuildGB P).2 T } := by
      rw [rebuild_pages_lookup, hT]
      rfl
    constructor
    · rintro ⟨pg, hpg, hq⟩
      rw [hT2] at hpg
      simp only [Option.some.injEq] at hpg
      subst hpg
      exact ⟨by simp, (rebuild_backlinks_mem P T q _ hT2).mp hq⟩
    · rintro ⟨_, hex⟩
      exact ⟨_, hT2, (rebuild_backlinks_mem P T q _ hT2).mpr hex⟩

theorem option_ext {α : Type} (o1 o2 : Option α)
    (h : ∀ x, o1 = some x ↔ o2 = some x) : o1 = o2 := by
  cases o1 with
  | none =>
    cases o2 with
    | none => rfl
    | some b => exact ((h b).mpr rfl).symm ▸ rfl
  | some a => exact ((h a).mp rfl).symm

theorem exists_entry_key_prop (P : List (FPath × Page)) (q : FPath)
    (prop : FPath → Prop) :
    (∃ kv ∈ P, kv.1 = q ∧ prop kv.1) ↔ q ∈ P.map Prod.fst ∧ prop q := by
  constructor
  · rintro ⟨kv, hkv, rfl, hp⟩
    exact ⟨List.mem_map_of_mem Prod.fst hkv, hp⟩
  · rintro ⟨hmem, hp⟩
    rw [List.mem_map] at hmem
    rcases hmem with ⟨kv, hkv, rfl⟩
    exact ⟨kv, hkv, rfl, hp⟩

theorem isSome_map_core (o : Option Page) : (o.map pageCore).isSome = o.isSome := by
  cases o <;> rfl

theorem map_core_exists (o1 o2 : Option Page)
    (h : o1.map pageCore = o2.map pageCore) (Q : Page → Prop)
    (hstable : ∀ a b, pageCore a = pageCore b → (Q a ↔ Q b)) :
    (∃ v, o1 = some v ∧ Q v) ↔ ∃ v, o2 = some v ∧ Q v := by
  cases o1 with
  | none =>
    cases o2 with
    | none => simp
    | some b => exact absurd h (by simp)
  | some a =>
    cases o2 with
    | none => exact absurd h (by simp)
    | some b =>
      simp only [Option.map_some', Option.some.injEq] at h
      simp only [Option.some.injEq]
      constructor
      · rintro ⟨v, rfl, hq⟩
        exact ⟨b, rfl, (hstable a b h).mp hq⟩
      · rintro ⟨v, rfl, hq⟩
        exact ⟨a, rfl, (hstable a b h).mpr hq⟩

theorem pageCore_links_eq {a b : Page} (h : pageCore a = pageCore b) :
    a.links = b.links := by
  have := congrArg Page.links h
  exact this

theorem pageCore_tags_eq {a b : Page} (h : pageCore a = pageCore b) :
    a.tags = b.tags := by
  have := congrArg Page.tags h
  exact this

theorem pageCore_backlinks_irrel (a : Page) (c : List FPath) :
    pageCore { a with backlinks := c } = pageCore a := rfl

/-- Whether a parse attempt succeeded. -/
def parseOk (x : Except ParseErr Page) : Bool :=
  match x with
  | .ok _ => true
  | .error _ => false

theorem batch_scan_core_lookup (pc : ContentParser) (fsI : FS) (script : List FsChange)
    (hmd : ∀ ch ∈ script, is_markdown_file (changePath ch) = true)
    (hparse : ∀ ch ∈ script,
      aLookup (finalFS fsI script) (changePath ch) = none ∨
        parseOk (parse_file pc (finalFS fsI script) (changePath ch)) = true)
    (p : FPath) :
    (aLookup ((script.map changeEvent).foldl
          (handle_file_event pc (finalFS fsI script)) (scan_vault pc fsI).pages) p).map
        pageCore
      = (aLookup (scanPages pc (finalFS fsI script)) p).map pageCore := by
  rw [batch_lookup]
  rcases hl : lastChange p script with _ | ch
  · have hfs : aLookup (finalFS fsI script) p = aLookup fsI p := by
      have h0 := finalFS_lookup p script fsI
      rw [hl] at h0
      exact h0
    rw [show (aLookup (scan_vault pc fsI).pages p).map pageCore
        = (aLookup (scanPages pc fsI) p).map pageCore from coreLookup_rebuild _ p]
    rw [scanPages_lookup pc fsI p, scanPages_lookup pc (finalFS fsI script) p]
    have hmem : (p ∈ (finalFS fsI script).map Prod.fst) ↔ p ∈ fsI.map Prod.fst := by
      rw [← aLookup_isSome_iff, ← aLookup_isSome_iff, hfs]
    have hps : parseOrStub pc (finalFS fsI script) p = parseOrStub pc fsI p := by
      unfold parseOrStub
      rw [parse_file_congr pc _ _ p hfs]
    by_cases hcond : is_markdown_file p = true ∧ p ∈ fsI.map Prod.fst
    · rw [if_pos hcond, if_pos ⟨hcond.1, hmem.mpr hcond.2⟩, hps]
    · rw [if_neg hcond, if_neg (fun h => hcond ⟨h.1, hmem.mp h.2⟩)]
  · obtain ⟨hchmem, hchp⟩ := lastChange_mem p script ch hl
    cases ch with
    | fwrite q c b =>
      simp only [changePath] at hchp
      subst hchp
      have hF : aLookup (finalFS fsI script) q = some c := by
        have h0 := finalFS_lookup q script fsI
        rw [hl] at h0
        exact h0
      have hmdp : is_markdown_file q = true := hmd _ hchmem
      rcases hparse _ hchmem with hnone | hok
      · simp only [changePath] at hnone
        rw [hF] at hnone
        exact absurd hnone (by simp)
      · simp only [changePath] at hok
        rcases hpf : parse_file pc (finalFS fsI script) q with e | pg
        · rw [hpf] at hok
          exact absurd hok (by simp [parseOk])
        · rw [scanPages_lookup pc (finalFS fsI script) q]
          have hmem : q ∈ (finalFS fsI script).map Prod.fst := by
            rw [← aLookup_isSome_iff, hF]
            rfl
          rw [if_pos ⟨hmdp, hmem⟩]
          have : parseOrStub pc (finalFS fsI script) q = pg := by
            unfold parseOrStub
            rw [hpf]
          rw [this]
    | fdelete q =>
      simp only [changePath] at hchp
      subst hchp
      have hF : aLookup (finalFS fsI script) q = none := by
        have h0 := finalFS_lookup q script fsI
        rw [hl] at h0
        exact h0
      rw [scanPages_lookup pc (finalFS fsI script) q]
      have hmem : q ∉ (finalFS fsI script).map Prod.fst :=
        (aLookup_eq_none_iff _ q).mp hF
      rw [if_neg (fun h => hmem h.2)]

theorem resolver_congr (r1 r2 : List (Str × FPath))
    (h : ∀ n, aLookup r1 n = aLookup r2 n) (l : Link) :
    resolveWith r1 l = resolveWith r2 l := h _

theorem keys_mem_of_core (P Q : List (FPath × Page))
    (hc : ∀ p, (aLookup P p).map pageCore = (aLookup Q p).map pageCore) (p : FPath) :
    p ∈ P.map Prod.fst ↔ p ∈ Q.map Prod.fst := by
  have h1 := congrArg Option.isSome (hc p)
  rw [isSome_map_core, isSome_map_core] at h1
  rw [← aLookup_isSome_iff, ← aLookup_isSome_iff, h1]

theorem stemInj_of_core (P Q : List (FPath × Page))
    (hc : ∀ p, (aLookup P p).map pageCore = (aLookup Q p).map pageCore)
    (hinjQ : stemInj Q) : stemInj P := by
  intro kv1 h1 kv2 h2 hs
  have hk1 : kv1.1 ∈ Q.map Prod.fst :=
    (keys_mem_of_core P Q hc kv1.1).mp (List.mem_map_of_mem Prod.fst h1)
  have hk2 : kv2.1 ∈ Q.map Prod.fst :=
    (keys_mem_of_core P Q hc kv2.1).mp (List.mem_map_of_mem Prod.fst h2)
  rcases List.mem_map.mp hk1 with ⟨w1, hw1, he1⟩
  rcases List.mem_map.mp hk2 with ⟨w2, hw2, he2⟩
  rw [← he1, ← he2] at hs ⊢
  exact hinjQ w1 hw1 w2 hw2 hs

theorem resolver_lookup_congr (P Q : List (FPath × Page))
    (hndP : (P.map Prod.fst).Nodup) (hndQ : (Q.map Prod.fst).Nodup)
    (hinjP : stemInj P) (hinjQ : stemInj Q)
    (hc : ∀ p, (aLookup P p).map pageCore = (aLookup Q p).map pageCore) (n : Str) :
    aLookup (rebuild_link_resolver P) n = aLookup (rebuild_link_resolver Q) n := by
  apply option_ext
  intro q
  rw [resolver_iff P n q hndP hinjP, resolver_iff Q n q hndQ hinjQ,
    exists_entry_key_prop P q (fun k => stemLower k = some n),
    exists_entry_key_prop Q q (fun k => stemLower k = some n),
    keys_mem_of_core P Q hc q]

/-- Rebuilding relations from two pages lists that agree pointwise up to the
(recomputed) backlink sets yields semantically equal index states. -/
theorem rebuild_equiv_of_core (P Q : List (FPath × Page))
    (hndP : (P.map Prod.fst).Nodup) (hndQ : (Q.map Prod.fst).Nodup)
    (hinjQ : stemInj Q)
    (hc : ∀ p, (aLookup P p).map pageCore = (aLookup Q p).map pageCore) :
    stateEquiv (rebuild_relations P) (rebuild_relations Q) := by
  have hinjP : stemInj P := stemInj_of_core P Q hc hinjQ
  have hres : ∀ n,
      aLookup (rebuild_link_resolver P) n = aLookup (rebuild_link_resolver Q) n :=
    resolver_lookup_congr P Q hndP hndQ hinjP hinjQ hc
  have hrw : ∀ l, resolveWith (rebuild_link_resolver P) l
      = resolveWith (rebuild_link_resolver Q) l :=
    fun l => resolver_congr _ _ hres l
  refine ⟨?_, ?_, ?_, ?_⟩
  · intro p
    rw [coreLookup_rebuild, coreLookup_rebuild]
    exact hc p
  · intro T q
    rw [backlinkMem_rebuild, backlinkMem_rebuild]
    have hsome : (aLookup P T).isSome = (aLookup Q T).isSome := by
      have h1 := congrArg Option.isSome (hc T)
      rw [isSome_map_core, isSome_map_core] at h1
      exact h1
    rw [hsome]
    simp only [hrw]
    rw [exists_entry_iff_lookup P q
        (fun pg => ∃ l ∈ pg.links,
          resolveWith (rebuild_link_resolver Q) l = some T) hndP,
      exists_entry_iff_lookup Q q
        (fun pg => ∃ l ∈ pg.links,
          resolveWith (rebuild_link_resolver Q) l = some T) hndQ]
    exact and_congr_right fun _ =>
      map_core_exists _ _ (hc q) _ (fun a b hab => by rw [pageCore_links_eq hab])
  · intro t p
    rw [rebuild_tags_mem, rebuild_tags_mem]
    rw [exists_entry_iff_lookup P p (fun pg => t ∈ pg.tags) hndP,
      exists_entry_iff_lookup Q p (fun pg => t ∈ pg.tags) hndQ]
    exact map_core_exists _ _ (hc p) _ (fun a b hab => by rw [pageCore_tags_eq hab])
  · intro s t
    rw [rebuild_graphGet P s t hndP, rebuild_graphGet Q s t hndQ]
    have h2 := hc s
    rcases hP : aLookup P s with _ | a
    · rcases hQ : aLookup Q s with _ | b
      · rfl
      · rw [hP, hQ] at h2
        exact absurd h2 (by simp)
    · rcases hQ : aLookup Q s with _ | b
      · rw [hP, hQ] at h2
        exact absurd h2 (by simp)
      · rw [hP, hQ] at h2
        simp only [Option.map_some', Option.some.injEq] at h2
        show a.links.filter _ = b.links.filter _
        rw [pageCore_links_eq h2]
        apply List.filter_congr
        intro l hl
        rw [hrw l]

/-- Claim C2, amended: applying a sequence of Created/Modified/Deleted events
through `handle_event_batch` (starting from the index of a scan of the
initial tree) yields the same index state as a fresh `scan_vault` of the tree
in its final state — pages equal up to the recomputed backlink sets, backlink
sets, tag sets and the link graph equal — provided every path the events
touch is a markdown path, every such path still present in the final tree
parses successfully there (otherwise `update_file` drops the page while the
scan records a stub: see the counterexample theorem), and no two final
markdown files share a lowercased stem (otherwise link resolution is order
dependent). -/
theorem C2_batch_equals_rescan (pc : ContentParser) (fsI : FS)
    (script : List FsChange)
    (hmd : ∀ ch ∈ script, is_markdown_file (changePath ch) = true)
    (hparse : ∀ ch ∈ script,
      aLookup (finalFS fsI script) (changePath ch) = none ∨
        parseOk (parse_file pc (finalFS fsI script) (changePath ch)) = true)
    (hinj : stemInj (scanPages pc (finalFS fsI script))) :
    stateEquiv
      (handle_event_batch pc (finalFS fsI script) (script.map changeEvent)
        (scan_vault pc fsI))
      (scan_vault pc (finalFS fsI script)) := by
  have hnd0 : (((scan_vault pc fsI).pages).map Prod.fst).Nodup := by
    show (((rebuild_relations (scanPages pc fsI)).pages).map Prod.fst).Nodup
    rw [rebuild_pages_keys]
    exact scanPages_keys_nodup pc fsI
  exact rebuild_equiv_of_core _ _
    (batch_keys_nodup pc (finalFS fsI script) script (scan_vault pc fsI).pages hnd0)
    (scanPages_keys_nodup pc (finalFS fsI script))
    hinj
    (batch_scan_core_lookup pc fsI script hmd hparse)

/-- Witness for C2 (amended): a concrete run — empty initial tree, one
Created event writing `a.md` with a parser that accepts everything — where
the batched path and the fresh rescan agree. -/
theorem C2_batch_equals_rescan_witness :
    stateEquiv
      (handle_event_batch (fun p _ => some (default_page p))
        (finalFS [] [ FsChange.fwrite [ "a.md".data ] "x".data true ])
        ([ FsChange.fwrite [ "a.md".data ] "x".data true ].map changeEvent)
        (scan_vault (fun p _ => some (default_page p)) []))
      (scan_vault (fun p _ => some (default_page p))
        (finalFS [] [ FsChange.fwrite [ "a.md".data ] "x".data true ])) :=
  C2_batch_equals_rescan (fun p _ => some (default_page p)) []
    [ FsChange.fwrite [ "a.md".data ] "x".data true ]
    (by decide) (by decide) (by unfold stemInj; decide)

/-- Claim C2, counterexample to the claim as stated: one Created event on a
file whose parse fails.  The batched path (`update_file`) leaves no entry for
it, while the fresh rescan of the same final tree records a tolerant stub —
so the two resulting pages maps are not identical. -/
theorem C2_event_path_diverges_from_rescan :
    aLookup (handle_event_batch (fun _ _ => none)
        [ ([ "bad.md".data ], "x".data) ]
        [ FileEvent.created [ "bad.md".data ] ]
        (scan_vault (fun _ _ => none) [])).pages
      [ "bad.md".data ] = none ∧
    aLookup (scan_vault (fun _ _ => none)
        [ ([ "bad.md".data ], "x".data) ]).pages
      [ "bad.md".data ] = some (default_page [ "bad.md".data ]) :=
  ⟨by decide, by decide⟩

/-- `PageHeader` of `models.rs`: a page identified by title and path. -/
structure PageHeader where
  title : Str
  path : FPath
deriving DecidableEq, Repr

/-- `BrokenLink` of `models.rs`: an unresolved target with its source pages. -/
structure BrokenLink where
  target : Str
  sources : List PageHeader
deriving DecidableEq, Repr

/-- Lexicographic string order (the `Ord` used by Rust `sort_by_key` on
`String` keys), as a Boolean relation. -/
def lexLe : Str → Str → Bool
  | [], _ => true
  | _ :: _, [] => false
  | a :: as, b :: bs =>
    if a.toNat < b.toNat then true
    else if b.toNat < a.toNat then false
    else lexLe as bs

theorem lexLe_cons (x y : Char) (xs ys : Str) :
    lexLe (x :: xs) (y :: ys)
      = if x.toNat < y.toNat then true
        else if y.toNat < x.toNat then false
        else lexLe xs ys := rfl

theorem lexLe_total : ∀ a b : Str, (lexLe a b || lexLe b a) = true := by
  intro a
  induction a with
  | nil => intro b; rfl
  | cons x xs ih =>
    intro b
    cases b with
    | nil => rfl
    | cons y ys =>
      rw [lexLe_cons, lexLe_cons]
      by_cases h1 : x.toNat < y.toNat
      · simp [h1]
      · by_cases h2 : y.toNat < x.toNat
        · simp [h1, h2]
        · simp only [if_neg h1, if_neg h2]
          exact ih ys

theorem lexLe_trans : ∀ a b c : Str,
    lexLe a b = true → lexLe b c = true → lexLe a c = true := by
  intro a
  induction a with
  | nil => intro b c _ _; rfl
  | cons x xs ih =>
    intro b c hab hbc
    cases b with
    | nil => exact absurd hab (by simp [lexLe])
    | cons y ys =>
      cases c with
      | nil => exact absurd hbc (by simp [lexLe])
      | cons z zs =>
        rw [lexLe_cons] at hab hbc ⊢
        by_cases h1 : x.toNat < y.toNat
        · by_cases h2 : y.toNat < z.toNat
          · rw [if_pos (Nat.lt_trans h1 h2)]
          · rw [if_neg h2] at hbc
            by_cases h3 : z.toNat < y.toNat
            · rw [if_pos h3] at hbc
              exact absurd hbc (by simp)
            · have hyz : y.toNat = z.toNat :=
                Nat.le_antisymm (Nat.le_of_not_lt h3) (Nat.le_of_not_lt h2)
              rw [if_pos (hyz ▸ h1)]
        · rw [if_neg h1] at hab
          by_cases h4 : y.toNat < x.toNat
          · rw [if_pos h4] at hab
            exact absurd hab (by simp)
          · rw [if_neg h4] at hab
            have hxy : x.toNat = y.toNat :=
              Nat.le_antisymm (Nat.le_of_not_lt h4) (Nat.le_of_not_lt h1)
            by_cases h2 : y.toNat < z.toNat
            · rw [if_pos (hxy.symm ▸ h2)]
            · rw [if_neg h2] at hbc
              by_cases h3 : z.toNat < y.toNat
              · rw [if_pos h3] at hbc
                exact absurd hbc (by simp)
              · rw [if_neg h3] at hbc
                have hyz : y.toNat = z.toNat :=
                  Nat.le_antisymm (Nat.le_of_not_lt h3) (Nat.le_of_not_lt h2)
                have hnxz : ¬ x.toNat < z.toNat := by
                  rw [hxy, hyz]
                  exact Nat.lt_irrefl _
                have hnzx : ¬ z.toNat < x.toNat := by
                  rw [hxy, hyz]
                  exact Nat.lt_irrefl _
                rw [if_neg hnxz, if_neg hnzx]
                exact ih ys zs hab hbc

theorem mem_keys_aUpd {κ β : Type} [DecidableEq κ] (m : List (κ × β)) (k : κ)
    (f : β → β) (d : β) (q : κ) :
    q ∈ (aUpd m k f d).map Prod.fst ↔ q = k ∨ q ∈ m.map Prod.fst := by
  induction m with
  | nil => simp [aUpd]
  | cons kv rest ih =>
    rcases kv with ⟨k1, v⟩
    rw [aUpd_cons]
    by_cases h : k1 = k
    · rw [if_pos h]
      subst h
      simp only [List.map_cons, List.mem_cons]
      constructor
      · rintro (rfl | hq)
        · exact Or.inl rfl
        · exact Or.inr (Or.inr hq)
      · rintro (rfl | rfl | hq)
        · exact Or.inl rfl
        · exact Or.inl rfl
        · exact Or.inr hq
    · rw [if_neg h]
      simp only [List.map_cons, List.mem_cons, ih]
      tauto

theorem aUpd_values_prop {κ β : Type} [DecidableEq κ] (Q : β → Prop)
    (m : List (κ × β)) (k : κ) (f : β → β) (d : β)
    (hm : ∀ kv ∈ m, Q kv.2) (hf : ∀ v, Q v → Q (f v)) (hd : Q d) :
    ∀ kv ∈ aUpd m k f d, Q kv.2 := by
  induction m with
  | nil =>
    intro kv hkv
    simp only [aUpd, List.mem_singleton] at hkv
    subst hkv
    exact hf d hd
  | cons kv0 rest ih =>
    rcases kv0 with ⟨k1, v⟩
    rw [aUpd_cons]
    by_cases h : k1 = k
    · rw [if_pos h]
      intro kv hkv
      rcases List.mem_cons.mp hkv with rfl | hr
      · exact hf v (hm (k1, v) (List.mem_cons_self _ _))
      · exact hm kv (List.mem_cons_of_mem _ hr)
    · rw [if_neg h]
      intro kv hkv
      rcases List.mem_cons.mp hkv with rfl | hr
      · exact hm (k1, v) (List.mem_cons_self _ _)
      · exact ih (fun w hw => hm w (List.mem_cons_of_mem _ hw)) kv hr

/-- One step of the broken-link collection (`get_all_broken_links`, first
loop): when a link does not resolve, insert the source page header into the
set kept under the link's exact target string. -/
def addBroken (st : Indexer) (src : FPath) (title : Str)
    (m : List (Str × List PageHeader)) (l : Link) : List (Str × List PageHeader) :=
  if (resolve_link st l).isNone then
    aUpd m l.target (setIns (PageHeader.mk title src)) []
  else m

/-- The `broken_links_map` accumulator of `get_all_broken_links`. -/
def brokenMap (st : Indexer) : List (Str × List PageHeader) :=
  st.pages.foldl (fun m kv => kv.2.links.foldl (addBroken st kv.1 kv.2.title) m) []

theorem mem_addBroken (st : Indexer) (src : FPath) (title : Str)
    (m : List (Str × List PageHeader)) (l : Link) (t : Str) (h : PageHeader) :
    h ∈ ((aLookup (addBroken st src title m l) t).getD []) ↔
      (resolve_link st l = none ∧ l.target = t ∧ h = PageHeader.mk title src) ∨
        h ∈ ((aLookup m t).getD []) := by
  unfold addBroken
  by_cases hres : (resolve_link st l).isNone = true
  · rw [if_pos hres]
    by_cases ht : l.target = t
    · subst ht
      rw [aLookup_aUpd_self]
      simp only [Option.getD_some]
      rw [mem_setIns]
      constructor
      · rintro (rfl | hm2)
        · exact Or.inl ⟨Option.isNone_iff_eq_none.mp hres, by trivial, by trivial⟩
        · exact Or.inr hm2
      · rintro (⟨_, _, rfl⟩ | hm2)
        · exact Or.inl rfl
        · exact Or.inr hm2
    · rw [aLookup_aUpd_ne _ _ _ _ t ht]
      constructor
      · exact Or.inr
      · rintro (⟨_, hlt, _⟩ | hm2)
        · exact absurd hlt ht
        · exact hm2
  · rw [if_neg hres]
    constructor
    · exact Or.inr
    · rintro (⟨hn, _, _⟩ | hm2)
      · exact absurd (Option.isNone_iff_eq_none.mpr hn) hres
      · exact hm2

theorem mem_foldBroken (st : Indexer) (src : FPath) (title : Str) (ls : List Link)
    (m : List (Str × List PageHeader)) (t : Str) (h : PageHeader) :
    h ∈ ((aLookup (ls.foldl (addBroken st src title) m) t).getD []) ↔
      (∃ l ∈ ls, resolve_link st l = none ∧ l.target = t ∧
          h = PageHeader.mk title src) ∨
        h ∈ ((aLookup m t).getD []) := by
  induction ls generalizing m with
  | nil => simp
  | cons l rest ih =>
    rw [List.foldl_cons, ih, mem_addBroken]
    constructor
    · rintro (⟨w, hw, hp⟩ | ⟨h1, h2, h3⟩ | hm2)
      · exact Or.inl ⟨w, List.mem_cons_of_mem l hw, hp⟩
      · exact Or.inl ⟨l, List.mem_cons_self l rest, h1, h2, h3⟩
      · exact Or.inr hm2
    · rintro (⟨w, hw, hp⟩ | hm2)
      · rcases List.mem_cons.mp hw with rfl | hw1
        · exact Or.inr (Or.inl hp)
        · exact Or.inl ⟨w, hw1, hp⟩
      · exact Or.inr (Or.inr hm2)

theorem mem_brokenMap_fold (st : Indexer) (P : List (FPath × Page))
    (m : List (Str × List PageHeader)) (t : Str) (h : PageHeader) :
    h ∈ ((aLookup (P.foldl
          (fun m kv => kv.2.links.foldl (addBroken st kv.1 kv.2.title) m) m) t).getD []) ↔
      (∃ kv ∈ P, ∃ l ∈ kv.2.links, resolve_link st l = none ∧ l.target = t ∧
          h = PageHeader.mk kv.2.title kv.1) ∨
        h ∈ ((aLookup m t).getD []) := by
  induction P generalizing m with
  | nil =>
    constructor
    · exact Or.inr
    · rintro (⟨w, hw, _⟩ | hm2)
      · exact absurd hw (List.not_mem_nil w)
      · exact hm2
  | cons kv rest ih =>
    rw [List.foldl_cons, ih, mem_foldBroken]
    constructor
    · rintro (⟨w, hw, hp⟩ | ⟨l, hl, hp⟩ | hm2)
      · exact Or.inl ⟨w, List.mem_cons_of_mem kv hw, hp⟩
      · exact Or.inl ⟨kv, List.mem_cons_self kv rest, l, hl, hp⟩
      · exact Or.inr hm2
    · rintro (⟨w, hw, hp⟩ | hm2)
      · rcases List.mem_cons.mp hw with rfl | hw1
        · exact Or.inr (Or.inl hp)
        · exact Or.inl ⟨w, hw1, hp⟩
      · exact Or.inr (Or.inr hm2)

theorem mem_brokenMap (st : Indexer) (t : Str) (h : PageHeader) :
    h ∈ ((aLookup (brokenMap st) t).getD []) ↔
      ∃ kv ∈ st.pages, ∃ l ∈ kv.2.links, resolve_link st l = none ∧ l.target = t ∧
        h = PageHeader.mk kv.2.title kv.1 := by
  unfold brokenMap
  rw [mem_brokenMap_fold]
  constructor
  · rintro (hx | hm2)
    · exact hx
    · simp only [aLookup_nil, Option.getD_none] at hm2
      exact absurd hm2 (List.not_mem_nil h)
  · exact Or.inl

theorem keys_addBroken (st : Indexer) (src : FPath) (title : Str)
    (m : List (Str × List PageHeader)) (l : Link) (t : Str) :
    t ∈ (addBroken st src title m l).map Prod.fst ↔
      (resolve_link st l = none ∧ l.target = t) ∨ t ∈ m.map Prod.fst := by
  unfold addBroken
  by_cases hres : (resolve_link st l).isNone = true
  · rw [if_pos hres, mem_keys_aUpd]
    constructor
    · rintro (rfl | hm2)
      · exact Or.inl ⟨Option.isNone_iff_eq_none.mp hres, rfl⟩
      · exact Or.inr hm2
    · rintro (⟨_, rfl⟩ | hm2)
      · exact Or.inl rfl
      · exact Or.inr hm2
  · rw [if_neg hres]
    constructor
    · exact Or.inr
    · rintro (⟨hn, _⟩ | hm2)
      · exact absurd (Option.isNone_iff_eq_none.mpr hn) hres
      · exact hm2

theorem keys_foldBroken (st : Indexer) (src : FPath) (title : Str) (ls : List Link)
    (m : List (Str × List PageHeader)) (t : Str) :
    t ∈ (ls.foldl (addBroken st src title) m).map Prod.fst ↔
      (∃ l ∈ ls, resolve_link st l = none ∧ l.target = t) ∨ t ∈ m.map Prod.fst := by
  induction ls generalizing m with
  | nil => simp
  | cons l rest ih =>
    rw [List.foldl_cons, ih, keys_addBroken]
    constructor
    · rintro (⟨w, hw, hp⟩ | ⟨h1, h2⟩ | hm2)
      · exact Or.inl ⟨w, List.mem_cons_of_mem l hw, hp⟩
      · exact Or.inl ⟨l, List.mem_cons_self l rest, h1, h2⟩
      · exact Or.inr hm2
    · rintro (⟨w, hw, hp⟩ | hm2)
      · rcases List.mem_cons.mp hw with rfl | hw1
        · exact Or.inr (Or.inl hp)
        · exact Or.inl ⟨w, hw1, hp⟩
      · exact Or.inr (Or.inr hm2)

theorem keys_brokenMap (st : Indexer) (t : Str) :
    t ∈ (brokenMap st).map Prod.fst ↔
      ∃ kv ∈ st.pages, ∃ l ∈ kv.2.links, resolve_link st l = none ∧ l.target = t := by
  unfold brokenMap
  have hgen : ∀ (P : List (FPath × Page)) (m : List (Str × List PageHeader)),
      t ∈ (P.foldl
          (fun m kv => kv.2.links.foldl (addBroken st kv.1 kv.2.title) m) m).map Prod.fst ↔
        (∃ kv ∈ P, ∃ l ∈ kv.2.links, resolve_link st l = none ∧ l.target = t) ∨
          t ∈ m.map Prod.fst := by
    intro P
    induction P with
    | nil =>
      intro m
      constructor
      · exact Or.inr
      · rintro (⟨w, hw, _⟩ | hm2)
        · exact absurd hw (List.not_mem_nil w)
        · exact hm2
    | cons kv rest ih =>
      intro m
      rw [List.foldl_cons, ih, keys_foldBroken]
      constructor
      · rintro (⟨w, hw, hp⟩ | ⟨l, hl, hp⟩ | hm2)
        · exact Or.inl ⟨w, List.mem_cons_of_mem kv hw, hp⟩
        · exact Or.inl ⟨kv, List.mem_cons_self kv rest, l, hl, hp⟩
        · exact Or.inr hm2
      · rintro (⟨w, hw, hp⟩ | hm2)
        · rcases List.mem_cons.mp hw with rfl | hw1
          · exact Or.inr (Or.inl hp)
          · exact Or.inl ⟨w, hw1, hp⟩
        · exact Or.inr (Or.inr hm2)
  rw [hgen]
  constructor
  · rintro (hx | hm2)
    · exact hx
    · exact absurd hm2 (by simp)
  · exact Or.inl

theorem brokenMap_keys_nodup (st : Indexer) :
    ((brokenMap st).map Prod.fst).Nodup := by
  unfold brokenMap
  have hinner : ∀ (src : FPath) (title : Str) (ls : List Link)
      (m : List (Str × List PageHeader)), (m.map Prod.fst).Nodup →
      ((ls.foldl (addBroken st src title) m).map Prod.fst).Nodup := by
    intro src title ls
    induction ls with
    | nil => intro m h; exact h
    | cons l rs ih2 =>
      intro m h
      rw [List.foldl_cons]
      refine ih2 _ ?_
      unfold addBroken
      by_cases hres : (resolve_link st l).isNone = true
      · rw [if_pos hres]
        exact aUpd_keys_nodup _ _ _ _ h
      · rw [if_neg hres]
        exact h
  have hstep : ∀ (P : List (FPath × Page)) (m : List (Str × List PageHeader)),
      (m.map Prod.fst).Nodup →
      ((P.foldl
          (fun m kv => kv.2.links.foldl (addBroken st kv.1 kv.2.title) m) m).map
        Prod.fst).Nodup := by
    intro P
    induction P with
    | nil => intro m h; exact h
    | cons kv rest ih =>
      intro m h
      rw [List.foldl_cons]
      exact ih _ (hinner kv.1 kv.2.title kv.2.links m h)
  exact hstep st.pages [] (by simp)

theorem brokenMap_values_nodup (st : Indexer) :
    ∀ kv ∈ brokenMap st, kv.2.Nodup := by
  unfold brokenMap
  have hinner : ∀ (src : FPath) (title : Str) (ls : List Link)
      (m : List (Str × List PageHeader)), (∀ kv ∈ m, kv.2.Nodup) →
      ∀ kv ∈ ls.foldl (addBroken st src title) m, kv.2.Nodup := by
    intro src title ls
    induction ls with
    | nil => intro m h; exact h
    | cons l rs ih2 =>
      intro m h
      rw [List.foldl_cons]
      refine ih2 _ ?_
      unfold addBroken
      by_cases hres : (resolve_link st l).isNone = true
      · rw [if_pos hres]
        exact aUpd_values_prop List.Nodup m l.target _ [] h
          (fun v hv => nodup_setIns _ v hv) List.nodup_nil
      · rw [if_neg hres]
        exact h
  have hstep : ∀ (P : List (FPath × Page)) (m : List (Str × List PageHeader)),
      (∀ kv ∈ m, kv.2.Nodup) →
      ∀ kv ∈ P.foldl
          (fun m kv => kv.2.links.foldl (addBroken st kv.1 kv.2.title) m) m, kv.2.Nodup := by
    intro P
    induction P with
    | nil => intro m h; exact h
    | cons kv rest ih =>
      intro m h
      rw [List.foldl_cons]
      exact ih _ (hinner kv.1 kv.2.title kv.2.links m h)
  exact hstep st.pages [] (by intro kv h; exact absurd h (List.not_mem_nil kv))

/-- The source-list comparator of `get_all_broken_links`:
`sort_by_key(|p| p.title.to_lowercase())`. -/
def sourceLe (a b : PageHeader) : Bool := lexLe (lcase a.title) (lcase b.title)

/-- The result comparator of `get_all_broken_links`:
`sort_by_key(|bl| bl.target.to_lowercase())`. -/
def targetLe (a b : BrokenLink) : Bool := lexLe (lcase a.target) (lcase b.target)

theorem sourceLe_trans : ∀ a b c : PageHeader,
    sourceLe a b = true → sourceLe b c = true → sourceLe a c = true :=
  fun _ _ _ => lexLe_trans _ _ _

theorem sourceLe_total : ∀ a b : PageHeader, (sourceLe a b || sourceLe b a) = true :=
  fun _ _ => lexLe_total _ _

theorem targetLe_trans : ∀ a b c : BrokenLink,
    targetLe a b = true → targetLe b c = true → targetLe a c = true :=
  fun _ _ _ => lexLe_trans _ _ _

theorem targetLe_total : ∀ a b : BrokenLink, (targetLe a b || targetLe b a) = true :=
  fun _ _ => lexLe_total _ _

/-- The `get_all_broken_links` method: collect the per-target source sets,
sort each source list by lowercased title, sort the entries by lowercased
target. -/
def get_all_broken_links (st : Indexer) : List BrokenLink :=
  ((brokenMap st).map
      (fun kv => BrokenLink.mk kv.1 (kv.2.mergeSort sourceLe))).mergeSort targetLe

theorem mem_broken_result (st : Indexer) (bl : BrokenLink) :
    bl ∈ get_all_broken_links st ↔
      ∃ kv ∈ brokenMap st, bl = BrokenLink.mk kv.1 (kv.2.mergeSort sourceLe) := by
  unfold get_all_broken_links
  rw [(List.mergeSort_perm _ targetLe).mem_iff, List.mem_map]
  constructor
  · rintro ⟨kv, hkv, rfl⟩
    exact ⟨kv, hkv, rfl⟩
  · rintro ⟨kv, hkv, rfl⟩
    exact ⟨kv, hkv, rfl⟩

/-- Claim C9: `get_all_broken_links` aggregates every unresolved outgoing
link by its exact target string.  The result is sorted by (lowercased)
target, carries no two entries for one target, and an entry for a target
exists exactly when some page has an unresolved link to it; each entry's
source list is sorted by (lowercased) title, lists no page header twice, and
holds exactly the headers of the pages with an unresolved link to that
target — so two pages linking to one missing name yield one entry with both
sources. -/
theorem C9_broken_links_aggregated (st : Indexer) :
    (get_all_broken_links st).Pairwise (fun a b => targetLe a b = true) ∧
    ((get_all_broken_links st).map BrokenLink.target).Nodup ∧
    (∀ t, (∃ bl ∈ get_all_broken_links st, bl.target = t) ↔
      ∃ kv ∈ st.pages, ∃ l ∈ kv.2.links, resolve_link st l = none ∧ l.target = t) ∧
    (∀ bl ∈ get_all_broken_links st,
      bl.sources.Pairwise (fun a b => sourceLe a b = true) ∧
      bl.sources.Nodup ∧
      (∀ h, h ∈ bl.sources ↔
        ∃ kv ∈ st.pages, ∃ l ∈ kv.2.links, resolve_link st l = none ∧
          l.target = bl.target ∧ h = PageHeader.mk kv.2.title kv.1)) := by
  refine ⟨?_, ?_, ?_, ?_⟩
  · exact List.sorted_mergeSort targetLe_trans targetLe_total _
  · have hperm : ((get_all_broken_links st).map BrokenLink.target).Perm
        ((brokenMap st).map Prod.fst) := by
      have h1 := (List.mergeSort_perm
        ((brokenMap st).map
          (fun kv => BrokenLink.mk kv.1 (kv.2.mergeSort sourceLe))) targetLe).map
        BrokenLink.target
      rw [List.map_map] at h1
      exact h1
    exact hperm.nodup_iff.mpr (brokenMap_keys_nodup st)
  · intro t
    rw [← keys_brokenMap st t]
    constructor
    · rintro ⟨bl, hbl, rfl⟩
      rcases (mem_broken_result st bl).mp hbl with ⟨kv, hkv, rfl⟩
      exact List.mem_map_of_mem Prod.fst hkv
    · intro ht
      rcases List.mem_map.mp ht with ⟨kv, hkv, rfl⟩
      exact ⟨BrokenLink.mk kv.1 (kv.2.mergeSort sourceLe),
        (mem_broken_result st _).mpr ⟨kv, hkv, rfl⟩, rfl⟩
  · intro bl hbl
    rcases (mem_broken_result st bl).mp hbl with ⟨kv, hkv, rfl⟩
    refine ⟨List.sorted_mergeSort sourceLe_trans sourceLe_total _, ?_, ?_⟩
    · exact (List.mergeSort_perm kv.2 sourceLe).nodup_iff.mpr
        (brokenMap_values_nodup st kv hkv)
    · intro h
      show h ∈ kv.2.mergeSort sourceLe ↔ _
      rw [(List.mergeSort_perm kv.2 sourceLe).mem_iff]
      have hval : aLookup (brokenMap st) kv.1 = some kv.2 :=
        aLookup_eq_some_of_mem _ _ _ (brokenMap_keys_nodup st) hkv
      have h2 := mem_brokenMap st kv.1 h
      rw [hval] at h2
      simp only [Option.getD_some] at h2
      rw [h2]

/-- Witness for C9: the aggregation property at a concrete two-page vault in
which both pages link to the missing name `Ghost`. -/
def C9_vault : Indexer :=
  Indexer.mk
    [ ([ "A.md".data ],
        Page.mk [ "A.md".data ] "A".data []
          [ Link.mk "Ghost".data none none none ] [] none),
      ([ "B.md".data ],
        Page.mk [ "B.md".data ] "B".data []
          [ Link.mk "Ghost".data none none none ] [] none) ]
    [] [] []

theorem C9_broken_links_aggregated_witness :
    (get_all_broken_links C9_vault).Pairwise (fun a b => targetLe a b = true) ∧
    ((get_all_broken_links C9_vault).map BrokenLink.target).Nodup ∧
    (∀ t, (∃ bl ∈ get_all_broken_links C9_vault, bl.target = t) ↔
      ∃ kv ∈ C9_vault.pages, ∃ l ∈ kv.2.links,
        resolve_link C9_vault l = none ∧ l.target = t) ∧
    (∀ bl ∈ get_all_broken_links C9_vault,
      bl.sources.Pairwise (fun a b => sourceLe a b = true) ∧
      bl.sources.Nodup ∧
      (∀ h, h ∈ bl.sources ↔
        ∃ kv ∈ C9_vault.pages, ∃ l ∈ kv.2.links, resolve_link C9_vault l = none ∧
          l.target = bl.target ∧ h = PageHeader.mk kv.2.title kv.1)) :=
  C9_broken_links_aggregated C9_vault

/-- The raw debounced notification kinds of the `notify` crate, as the match
in `handle_debounced_events` distinguishes them: `Create(File)`, any other
`Create`, `Modify(Data(_))`, `Modify(Any)`, `Modify(Name(Both))`, any other
`Modify(Name(_))`, `Remove(_)`, and everything else. -/
inductive RawKind
  | createFile
  | createOther
  | modifyData
  | modifyAny
  | modifyNameBoth
  | modifyNameOther
  | removeK
  | otherK
deriving DecidableEq, Repr

/-- A raw debounced event: a kind and its path list. -/
structure RawEvent where
  kind : RawKind
  paths : List FPath
deriving DecidableEq, Repr

/-- `is_valid_file` of `watcher.rs`: not a temp/lock file (stem starting
`.#`) and a markdown file. -/
def is_valid_file (p : FPath) : Bool :=
  !((pathFileStem p).elim false (fun s => List.isPrefixOf [ '.', '#' ] s))
    && is_markdown_file p

/-- The per-notification conversion of `handle_debounced_events`: file
creations, data/any modifications and removals map each valid path to the
corresponding event; a `Modify(Name(Both))` yields one `Renamed` exactly when
it carries two paths that are both markdown files, and nothing otherwise;
every other kind yields nothing. -/
def convertEvent : RawEvent → List FileEvent
  | ⟨.createFile, ps⟩ => (ps.filter is_valid_file).map FileEvent.created
  | ⟨.createOther, _⟩ => []
  | ⟨.modifyData, ps⟩ => (ps.filter is_valid_file).map FileEvent.modified
  | ⟨.modifyAny, ps⟩ => (ps.filter is_valid_file).map FileEvent.modified
  | ⟨.modifyNameBoth, [f, t]⟩ =>
      if is_markdown_file f && is_markdown_file t then [FileEvent.renamed f t]
      else []
  | ⟨.modifyNameBoth, _⟩ => []
  | ⟨.modifyNameOther, _⟩ => []
  | ⟨.removeK, ps⟩ => (ps.filter is_valid_file).map FileEvent.deleted
  | ⟨.otherK, _⟩ => []

/-- `handle_debounced_events`: the events published for a batch, in order. -/
def handle_debounced_events (events : List RawEvent) : List FileEvent :=
  events.foldl (fun acc e => acc ++ convertEvent e) []

/-- Claim C7, amended: the watcher publishes a `Renamed` event for a
notification exactly when it is a `Modify(Name(Both))` carrying two paths
that are both markdown files; in that case it publishes exactly the single
event `Renamed{from, to}`; any rename notification failing that condition
publishes nothing at all — a `Modify(Name(Both))` with the wrong arity or a
non-markdown path, and likewise every lone `Modify(Name(From/To/Any))`
notification, is dropped, not degraded into separate Deleted/Created events
as the claim states. -/
theorem C7_rename_pairing (e : RawEvent) :
    ((∃ f t, FileEvent.renamed f t ∈ handle_debounced_events [ e ]) ↔
      (e.kind = RawKind.modifyNameBoth ∧ ∃ f t, e.paths = [f, t] ∧
        is_markdown_file f = true ∧ is_markdown_file t = true)) ∧
    (∀ f t, e.kind = RawKind.modifyNameBoth → e.paths = [f, t] →
      is_markdown_file f = true → is_markdown_file t = true →
      handle_debounced_events [ e ] = [FileEvent.renamed f t]) ∧
    (e.kind = RawKind.modifyNameBoth →
      (∀ f t, e.paths = [f, t] →
        is_markdown_file f = true → is_markdown_file t = true → False) →
      handle_debounced_events [ e ] = []) ∧
    (e.kind = RawKind.modifyNameOther → handle_debounced_events [ e ] = []) := by
  have hconv : handle_debounced_events [ e ] = convertEvent e := rfl
  rw [hconv]
  rcases e with ⟨k, ps⟩
  refine ⟨?_, ?_, ?_, ?_⟩
  · constructor
    · rintro ⟨f, t, hmem⟩
      cases k with
      | createFile =>
        rcases List.mem_map.mp hmem with ⟨p, _, hp⟩
        exact FileEvent.noConfusion hp
      | createOther => exact absurd hmem (List.not_mem_nil _)
      | modifyData =>
        rcases List.mem_map.mp hmem with ⟨p, _, hp⟩
        exact FileEvent.noConfusion hp
      | modifyAny =>
        rcases List.mem_map.mp hmem with ⟨p, _, hp⟩
        exact FileEvent.noConfusion hp
      | modifyNameOther => exact absurd hmem (List.not_mem_nil _)
      | removeK =>
        rcases List.mem_map.mp hmem with ⟨p, _, hp⟩
        exact FileEvent.noConfusion hp
      | otherK => exact absurd hmem (List.not_mem_nil _)
      | modifyNameBoth =>
        rcases ps with _ | ⟨f0, _ | ⟨t0, _ | ⟨c0, rest⟩⟩⟩
        · exact absurd hmem (List.not_mem_nil _)
        · exact absurd hmem (List.not_mem_nil _)
        · have hmem2 : FileEvent.renamed f t ∈
              (if (is_markdown_file f0 && is_markdown_file t0) = true
                then [FileEvent.renamed f0 t0] else []) := hmem
          rcases hmd : (is_markdown_file f0 && is_markdown_file t0) with _ | _
          · rw [hmd] at hmem2
            simp at hmem2
          · rw [hmd] at hmem2
            simp at hmem2
            rw [Bool.and_eq_true] at hmd
            rcases hmem2 with ⟨rfl, rfl⟩
            exact ⟨rfl, f, t, rfl, hmd.1, hmd.2⟩
        · exact absurd hmem (List.not_mem_nil _)
    · rintro ⟨hk, f, t, hp, hf, ht⟩
      have hk2 : k = RawKind.modifyNameBoth := hk
      subst hk2
      have hp2 : ps = [f, t] := hp
      subst hp2
      refine ⟨f, t, ?_⟩
      simp [convertEvent, hf, ht]
  · intro f t hk hp hf ht
    have hk2 : k = RawKind.modifyNameBoth := hk
    subst hk2
    have hp2 : ps = [f, t] := hp
    subst hp2
    simp [convertEvent, hf, ht]
  · intro hk hcond
    have hk2 : k = RawKind.modifyNameBoth := hk
    subst hk2
    rcases ps with _ | ⟨f0, _ | ⟨t0, _ | ⟨c0, rest⟩⟩⟩
    · rfl
    · rfl
    · show (if (is_markdown_file f0 && is_markdown_file t0) = true
          then [FileEvent.renamed f0 t0] else []) = []
      rcases hmd : (is_markdown_file f0 && is_markdown_file t0) with _ | _
      · simp
      · rw [Bool.and_eq_true] at hmd
        exact (hcond f0 t0 rfl hmd.1 hmd.2).elim
    · rfl
  · intro hk
    have hk2 : k = RawKind.modifyNameOther := hk
    subst hk2
    rfl

/-- Witness for C7 (amended): the characterization at a concrete
`Modify(Name(Both))` notification pairing `a.md` with `b.md`. -/
theorem C7_rename_pairing_witness :
    ((∃ f t, FileEvent.renamed f t ∈ handle_debounced_events
        [ RawEvent.mk RawKind.modifyNameBoth [ [ "a.md".data ], [ "b.md".data ] ] ]) ↔
      ((RawEvent.mk RawKind.modifyNameBoth
          [ [ "a.md".data ], [ "b.md".data ] ]).kind = RawKind.modifyNameBoth ∧
        ∃ f t, (RawEvent.mk RawKind.modifyNameBoth
            [ [ "a.md".data ], [ "b.md".data ] ]).paths = [f, t] ∧
          is_markdown_file f = true ∧ is_markdown_file t = true)) ∧
    (∀ f t, (RawEvent.mk RawKind.modifyNameBoth
        [ [ "a.md".data ], [ "b.md".data ] ]).kind = RawKind.modifyNameBoth →
      (RawEvent.mk RawKind.modifyNameBoth
        [ [ "a.md".data ], [ "b.md".data ] ]).paths = [f, t] →
      is_markdown_file f = true → is_markdown_file t = true →
      handle_debounced_events
        [ RawEvent.mk RawKind.modifyNameBoth [ [ "a.md".data ], [ "b.md".data ] ] ]
        = [FileEvent.renamed f t]) ∧
    ((RawEvent.mk RawKind.modifyNameBoth
        [ [ "a.md".data ], [ "b.md".data ] ]).kind = RawKind.modifyNameBoth →
      (∀ f t, (RawEvent.mk RawKind.modifyNameBoth
          [ [ "a.md".data ], [ "b.md".data ] ]).paths = [f, t] →
        is_markdown_file f = true → is_markdown_file t = true → False) →
      handle_debounced_events
        [ RawEvent.mk RawKind.modifyNameBoth [ [ "a.md".data ], [ "b.md".data ] ] ]
        = []) ∧
    ((RawEvent.mk RawKind.modifyNameBoth
        [ [ "a.md".data ], [ "b.md".data ] ]).kind = RawKind.modifyNameOther →
      handle_debounced_events
        [ RawEvent.mk RawKind.modifyNameBoth [ [ "a.md".data ], [ "b.md".data ] ] ]
        = []) :=
  C7_rename_pairing (RawEvent.mk RawKind.modifyNameBoth
    [ [ "a.md".data ], [ "b.md".data ] ])

/-- Claim C7, counterexample to the claim as stated: a rename notification
pairing a markdown file with a non-markdown destination publishes no events
at all — in particular no separate Deleted/Created pair, contradicting the
claimed graceful degradation. -/
theorem C7_unpaired_rename_drops_events :
    handle_debounced_events
        [ RawEvent.mk RawKind.modifyNameBoth [ [ "a.md".data ], [ "b.txt".data ] ] ]
      = [] ∧
    handle_debounced_events
        [ RawEvent.mk RawKind.modifyNameBoth [ [ "a.md".data ], [ "b.txt".data ] ] ]
      ≠ [FileEvent.deleted [ "a.md".data ], FileEvent.created [ "b.txt".data ] ] :=
  ⟨by decide, by decide⟩

end Chronicler
